import Mathlib

/-!
# Clair scanner utilities (`utils.go`): archive extraction and severity table

A shallow embedding of `utils.go` of the clair-scanner repository:

* `SeverityMap` and `validateThreshold` (lines 25-33 and 105-113);
* `untar` (lines 55-89), together with the three library functions its
  containment check is made of: `filepath.Clean`, `filepath.Join` and
  `strings.HasPrefix` (Unix flavour, where `os.PathSeparator` is `/`).

The file system and the archive reader are outside the program: `untar` is
stated over an arbitrary file system (`FileSystem`), whose calls may fail, and
over the sequence of entries the reader delivers (`Archive`).

Go strings are byte strings. Paths are modelled as Lean strings, that is as
lists of characters; the path functions only ever test a character against
`/` and `.`, so for text that is valid UTF-8 the two views coincide.
-/

namespace Clair

/-! ## `path/filepath` and `strings` (Go standard library, Unix) -/

/-- The path separator `os.PathSeparator` on Unix. -/
def PathSeparator : Char := '/'

/-- The elements of a path: the maximal runs of characters between
separators (`splitSep "a//b" = ["a", "", "b"]`). The scanning loop of
`filepath.Clean` looks at the path one such element at a time. -/
def splitSep : List Char → List (List Char)
  | [] => [[]]
  | c :: cs =>
    match splitSep cs with
    | [] => [[]]
    | e :: es => if c = PathSeparator then [] :: e :: es else (c :: e) :: es

/-- The write side of the `lazybuf` of `filepath.Clean`: `out` is the text
written so far (`out.length` is Go's `out.w`), `dotdot` is the index where a
`..` element must stop backtracking. -/
structure CleanState where
  out : List Char
  dotdot : Nat
deriving DecidableEq, Repr

/-- The inner loop of the `..` case, counting `w` down:
`for out.w > dotdot && !os.IsPathSeparator(out.index(out.w)) { out.w-- }`. -/
def backtrackLoop (dotdot : Nat) (out : List Char) : Nat → Nat
  | 0 => 0
  | w + 1 =>
    if dotdot < w + 1 ∧ out.get? (w + 1) ≠ some PathSeparator then
      backtrackLoop dotdot out w
    else w + 1

/-- Backtracking over the last element written: `out.w--` followed by the
inner loop; the buffer is cut at the resulting `w`. -/
def backtrack (dotdot : Nat) (out : List Char) : List Char :=
  out.take (backtrackLoop dotdot out (out.length - 1))

/-- One turn of the `switch` in the loop of `filepath.Clean`, for the path
element `elem`:
* an empty element (a separator met where an element would start) and a `.`
  element are skipped;
* a `..` element backtracks when `out.w > dotdot`, is appended (after a
  separator when `out.w > 0`) when the path is not rooted, with `dotdot`
  moved to the new `out.w`, and is dropped at the root of a rooted path;
* any other element is appended, after a separator when
  `rooted && out.w != 1 || !rooted && out.w != 0`. -/
def cleanStep (rooted : Bool) (st : CleanState) (elem : List Char) : CleanState :=
  if elem = [] then st
  else if elem = ['.'] then st
  else if elem = ['.', '.'] then
    if st.dotdot < st.out.length then
      { out := backtrack st.dotdot st.out, dotdot := st.dotdot }
    else if rooted then st
    else
      let out := (if 0 < st.out.length then st.out ++ [PathSeparator] else st.out) ++ ['.', '.']
      { out := out, dotdot := out.length }
  else
    let out :=
      if (rooted && st.out.length != 1) || (!rooted && st.out.length != 0) then
        st.out ++ [PathSeparator]
      else st.out
    { out := out ++ elem, dotdot := st.dotdot }

/-- The state of `filepath.Clean` when its loop `for r < n` ends, on a
non-empty path. A rooted path starts with the separator already written and
`r, dotdot = 1, 1`, so the loop reads what follows the first character; any
other path is read from its start with an empty buffer and `dotdot = 0`. Each
turn of the Go loop either skips one separator or consumes one element up to
the next separator, which is one `cleanStep` per element of `splitSep`. -/
def cleanRun (path : List Char) : CleanState :=
  match path with
  | [] => { out := [], dotdot := 0 }
  | c :: cs =>
    if c = PathSeparator then
      (splitSep cs).foldl (cleanStep true) { out := [PathSeparator], dotdot := 1 }
    else
      (splitSep (c :: cs)).foldl (cleanStep false) { out := [], dotdot := 0 }

/-- `filepath.Clean` on the characters of a path: the empty path gives `.`
(`if path == "" { return "." }`), and so does a path whose buffer is empty
when the loop ends (`if out.w == 0 { out.append('.') }`). -/
def cleanChars (path : List Char) : List Char :=
  if (cleanRun path).out = [] then ['.'] else (cleanRun path).out

/-- The function `filepath.Clean(path)` of the Go standard library on Unix,
where a path has no volume name and `FromSlash` changes nothing, computed
element by element. `CleanGo` below is the same function read off the Go
source character by character, and `Clean_eq_CleanGo` proves the two equal. -/
def Clean (path : String) : String := String.mk (cleanChars path.data)

/-- The loop `for r < n` of `filepath.Clean` as the Go source has it, one
character position at a time, on the characters `path[r:]` still to read;
`fuel` bounds the number of turns (every turn reads at least one character).
The four cases of the `switch`:
* `os.IsPathSeparator(path[r])`: an empty element, `r++`;
* `.` followed by the end or a separator: `r++`;
* `..` followed by the end or a separator: `r += 2`, then backtrack when
  `out.w > dotdot`, else append `..` (after a separator when `out.w > 0`) and
  move `dotdot` when the path is not rooted;
* otherwise a real element: a separator when
  `rooted && out.w != 1 || !rooted && out.w != 0`, then the characters up to
  the next separator. -/
def cleanLoop (rooted : Bool) : Nat → List Char → CleanState → CleanState
  | 0, _, st => st
  | _ + 1, [], st => st
  | fuel + 1, c :: rest, st =>
    if c = PathSeparator then
      cleanLoop rooted fuel rest st
    else if c = '.' ∧ (rest = [] ∨ rest.head? = some PathSeparator) then
      cleanLoop rooted fuel rest st
    else if c = '.' ∧ rest.head? = some '.' ∧
        (rest.tail = [] ∨ rest.tail.head? = some PathSeparator) then
      cleanLoop rooted fuel rest.tail
        (if st.dotdot < st.out.length then
          { out := backtrack st.dotdot st.out, dotdot := st.dotdot }
        else if rooted then st
        else
          { out := (if 0 < st.out.length then st.out ++ [PathSeparator] else st.out) ++
              ['.', '.'],
            dotdot := ((if 0 < st.out.length then st.out ++ [PathSeparator] else st.out) ++
              ['.', '.']).length })
    else
      cleanLoop rooted fuel ((c :: rest).dropWhile (fun x => x != PathSeparator))
        { out := (if (rooted && st.out.length != 1) || (!rooted && st.out.length != 0) then
              st.out ++ [PathSeparator]
            else st.out) ++ (c :: rest).takeWhile (fun x => x != PathSeparator),
          dotdot := st.dotdot }

/-- The function `filepath.Clean` read off the Go source line by line: the
empty path gives `.`; a rooted path starts with the separator written and
`r, dotdot = 1, 1`; the loop runs until the path is read; an empty buffer is
turned into `.`. The fuel given to the loop is the number of characters to
read plus one, which it never uses up. -/
def CleanGo (path : String) : String :=
  match path.data with
  | [] => "."
  | c :: cs =>
    if c = PathSeparator then
      if (cleanLoop true (cs.length + 1) cs { out := [PathSeparator], dotdot := 1 }).out = []
      then "."
      else String.mk
        (cleanLoop true (cs.length + 1) cs { out := [PathSeparator], dotdot := 1 }).out
    else
      if (cleanLoop false (cs.length + 2) (c :: cs) { out := [], dotdot := 0 }).out = []
      then "."
      else String.mk (cleanLoop false (cs.length + 2) (c :: cs) { out := [], dotdot := 0 }).out

/-- The function `filepath.Join(a, b)` of the Go standard library on Unix,
for the two elements `untar` passes: empty leading elements are ignored, the
rest is joined with the separator and cleaned
(`Clean(strings.Join(elem[i:], "/"))` for the first non-empty `elem[i]`); when
every element is empty the result is the empty string. -/
def Join (a b : String) : String :=
  if a ≠ "" then Clean (a ++ "/" ++ b)
  else if b ≠ "" then Clean b
  else ""

/-- The function `strings.HasPrefix(s, pre)` of the Go standard library:
`s` begins with `pre`. -/
def HasPrefix (s pre : String) : Bool := pre.data.isPrefixOf s.data

/-- A buffer of `filepath.Clean` starts well: it is not the single element
`.`, and it begins neither with `./` nor with `//`. -/
def goodStart (out : List Char) : Prop :=
  out ≠ ['.'] ∧ (∀ r, out ≠ '.' :: PathSeparator :: r) ∧
    (∀ r, out ≠ PathSeparator :: PathSeparator :: r)

/-- The invariant of the loop of `filepath.Clean` on the buffer `out` and the
index `dotdot`: the buffer starts well, `dotdot` lies within it, a rooted
path keeps its leading separator with `dotdot = 1`, and a path that is not
rooted never starts with a separator and has `dotdot` at `0` or past a
leading `..`. -/
def cleanInv (rooted : Bool) (out : List Char) (dotdot : Nat) : Prop :=
  goodStart out ∧ dotdot ≤ out.length ∧
    (rooted = true → dotdot = 1 ∧ ∃ r, out = PathSeparator :: r) ∧
    (rooted = false → (∀ r, out ≠ PathSeparator :: r) ∧ (dotdot = 0 ∨ 2 ≤ dotdot))

/-- A proper path element, one that `filepath.Clean` copies to its buffer: not
empty, not `.`, not `..`, and without a separator. -/
def normalElem (e : List Char) : Prop :=
  e ≠ [] ∧ e ≠ ['.'] ∧ e ≠ ['.', '.'] ∧ PathSeparator ∉ e

/-- Appending an element to a buffer the way `filepath.Clean` does it: after a
separator, unless the buffer is at its initial length `n` (`1` for a rooted
path, which starts with its separator written, `0` otherwise). -/
def pushElem (n : Nat) (out elem : List Char) : List Char :=
  (if out.length ≠ n then out ++ [PathSeparator] else out) ++ elem

/-- The buffer holding the elements `elems`, appended in order to the initial
buffer `base`. -/
def buildPath (base : List Char) (elems : List (List Char)) : List Char :=
  elems.foldl (pushElem base.length) base

/-- The initial buffer of `filepath.Clean`: the separator for a rooted path,
nothing otherwise. -/
def cleanBase (rooted : Bool) : List Char := if rooted then [PathSeparator] else []

/-- What the states of the loop of `filepath.Clean` look like: the buffer
holds `k` elements `..` (none when the path is rooted) followed by the proper
elements `ns`, and `dotdot` is the length of the part holding the `..`
elements. -/
def cleanRep (rooted : Bool) (st : CleanState) (k : Nat) (ns : List (List Char)) : Prop :=
  (∀ a ∈ ns, normalElem a) ∧ (rooted = true → k = 0) ∧
    st.out = buildPath (cleanBase rooted) (List.replicate k ['.', '.'] ++ ns) ∧
    st.dotdot = (buildPath (cleanBase rooted) (List.replicate k ['.', '.'])).length

/-- A path made of `..` elements only, such as `..` or `../..`. -/
def dotdotOnly (p : String) : Bool :=
  (splitSep p.data).all (fun e => decide (e = ['.', '.']))

/-- The elements of an entry name that name something: those that are neither
empty nor `.` (`properElems "./a//b/" = ["a", "b"]`). -/
def properElems (name : String) : List (List Char) :=
  (splitSep name.data).filter (fun e => decide (e ≠ []) && decide (e ≠ ['.']))

/-- The names an archive built from a directory tree gives its entries, the
root entry apart: a path relative to the root of the tree, that is without a
`..` element and with at least one element that names something (`a`,
`a/b`, `a/`, `./a/b`; not `.`, `./`, the empty name or `../x`). -/
def treeName (name : String) : Bool :=
  (splitSep name.data).all (fun e => decide (e ≠ ['.', '.'])) && !(properElems name).isEmpty

/-! ## The severity table and `validateThreshold` -/

/-- The package variable `SeverityMap`: CVE severity name to implied ranking.
A Go map is a finite set of key/value pairs with distinct keys; the pairs are
listed in the order of the source. -/
def SeverityMap : List (String × Nat) :=
  [("Critical", 1), ("High", 2), ("Medium", 3), ("Low", 4), ("Negligible", 5), ("Unknown", 6)]

/-- The index expression `SeverityMap[label]`: the value stored under the key,
and the zero value `0` of `int` when the key is absent. -/
def severityRank (label : String) : Nat := (SeverityMap.lookup label).getD 0

/-- How a call of `validateThreshold` ends: it returns to its caller, or it
reaches `logger.Fatalf`, which prints the formatted diagnostic and ends the
process. -/
inductive Outcome where
  | returned
  | fatal (diagnostic : String)
deriving DecidableEq, Repr

/-- The body of `validateThreshold` with the keys of the map visited in the
order `keys` (Go leaves the order of `range` over a map unspecified):
`return` on the first key equal to `threshold`, and
`logger.Fatalf("Invalid CVE severity threshold %s given", threshold)` after
the loop. -/
def validateThresholdOver (threshold : String) : List String → Outcome
  | [] => Outcome.fatal ("Invalid CVE severity threshold " ++ threshold ++ " given")
  | severity :: rest =>
    if threshold = severity then Outcome.returned else validateThresholdOver threshold rest

/-- The function `validateThreshold(logger, threshold)`, ranging over the keys
of `SeverityMap` in source order. -/
def validateThreshold (threshold : String) : Outcome :=
  validateThresholdOver threshold (SeverityMap.map Prod.fst)

/-! ## `untar` -/

/-- What `untar` uses of one archive entry: `header.Name`, the two answers of
`header.FileInfo()` it asks for (`IsDir()` and `Mode()`), and the bytes
`io.Copy` reads from `tarReader` for the entry. -/
structure Entry where
  name : String
  isDir : Bool
  mode : Nat
  content : List Nat
deriving DecidableEq, Repr

/-- The archive as `tarReader.Next()` delivers it: the entries in order, then
either `io.EOF` (`readErr = none`) or a read error. -/
structure Archive where
  entries : List Entry
  readErr : Option String
deriving DecidableEq, Repr

/-- The file-system calls of `untar`, over an arbitrary state `σ` of the file
system. Each call returns the state it leaves and the Go `error` (`none` is
`nil`); a failing call may have changed the state.
* `MkdirAll s path perm` is `os.MkdirAll(path, perm)`;
* `OpenFile s path perm` is
  `os.OpenFile(path, os.O_CREATE|os.O_TRUNC|os.O_WRONLY, perm)`;
* `Copy s path bytes` is `io.Copy(file, tarReader)` into the file just opened
  at `path`, `bytes` being the content of the entry. -/
structure FileSystem (σ : Type) where
  MkdirAll : σ → String → Nat → σ × Option String
  OpenFile : σ → String → Nat → σ × Option String
  Copy : σ → String → List Nat → σ × Option String

/-- The condition of line 68 under which an entry is extracted:
`strings.HasPrefix(path, filepath.Clean(target)+string(os.PathSeparator))`
for `path := filepath.Join(target, header.Name)`. -/
def contained (target name : String) : Bool :=
  HasPrefix (Join target name) (Clean target ++ String.singleton PathSeparator)

/-- The `for` loop of `untar`, from the state `s` of the file system, over the
entries still to be read. The result is the final state of the file system
and the error returned (`none` is `nil`). The deferred `file.Close()` calls
run when the function returns and change neither. -/
def untarLoop {σ : Type} (fs : FileSystem σ) (target : String) (readErr : Option String) :
    List Entry → σ → σ × Option String
  | [], s => (s, readErr)
  | e :: rest, s =>
    if !contained target e.name then
      (s, some (e.name ++ ": illegal file path"))
    else if e.isDir then
      match fs.MkdirAll s (Join target e.name) e.mode with
      | (s1, some err) => (s1, some err)
      | (s1, none) => untarLoop fs target readErr rest s1
    else
      match fs.OpenFile s (Join target e.name) e.mode with
      | (s1, some err) => (s1, some err)
      | (s1, none) =>
        match fs.Copy s1 (Join target e.name) e.content with
        | (s2, some err) => (s2, some err)
        | (s2, none) => untarLoop fs target readErr rest s2

/-- The function `untar(imageReader, target)` run from the file-system state `s`. -/
def untar {σ : Type} (fs : FileSystem σ) (target : String) (archive : Archive) (s : σ) :
    σ × Option String :=
  untarLoop fs target archive.readErr archive.entries s

/-! ### Observing the calls `untar` makes -/

/-- A file-system call, as issued by `untar`. -/
inductive Call where
  | mkdirAll (path : String) (perm : Nat)
  | openFile (path : String) (perm : Nat)
  | copy (path : String) (content : List Nat)
deriving DecidableEq, Repr

/-- The path a call is made on. -/
def Call.path : Call → String
  | Call.mkdirAll p _ => p
  | Call.openFile p _ => p
  | Call.copy p _ => p

/-- The file system `fs` with a log of the calls made on it: every call is
appended to the log, whether it succeeds or fails, and is otherwise passed
through to `fs` unchanged. -/
def traced {σ : Type} (fs : FileSystem σ) : FileSystem (σ × List Call) where
  MkdirAll st path perm :=
    (((fs.MkdirAll st.1 path perm).1, st.2 ++ [Call.mkdirAll path perm]),
      (fs.MkdirAll st.1 path perm).2)
  OpenFile st path perm :=
    (((fs.OpenFile st.1 path perm).1, st.2 ++ [Call.openFile path perm]),
      (fs.OpenFile st.1 path perm).2)
  Copy st path bytes :=
    (((fs.Copy st.1 path bytes).1, st.2 ++ [Call.copy path bytes]),
      (fs.Copy st.1 path bytes).2)

/-- A file system without state in which every call succeeds. -/
def okFS : FileSystem Unit where
  MkdirAll _ _ _ := ((), none)
  OpenFile _ _ _ := ((), none)
  Copy _ _ _ := ((), none)

/-- A file system without state in which every call fails, as on a volume
mounted read-only. -/
def readOnlyFS : FileSystem Unit where
  MkdirAll _ _ _ := ((), some "read-only file system")
  OpenFile _ _ _ := ((), some "read-only file system")
  Copy _ _ _ := ((), some "read-only file system")

/-- A file system none of whose calls fails. -/
def FileSystem.succeeds {σ : Type} (fs : FileSystem σ) : Prop :=
  (∀ s path perm, (fs.MkdirAll s path perm).2 = none) ∧
  (∀ s path perm, (fs.OpenFile s path perm).2 = none) ∧
  (∀ s path bytes, (fs.Copy s path bytes).2 = none)

/-- The calls `untar` makes for one entry that passes the containment check
when none of them fails: `MkdirAll` for a directory, `OpenFile` then `Copy`
for anything else, on the joined path, with the mode and the bytes of the
entry. -/
def callsOf (target : String) (e : Entry) : List Call :=
  if e.isDir then [Call.mkdirAll (Join target e.name) e.mode]
  else [Call.openFile (Join target e.name) e.mode, Call.copy (Join target e.name) e.content]

/-! ## The Vulnerability Gate component (§4.2 of the specification) -/

/-- Modelled from the spec: a Vulnerability of §3 (identifier, severity label,
package); the type is declared outside `utils.go`. -/
structure Vulnerability where
  id : String
  severity : String
  pkg : String
deriving DecidableEq, Repr

/-- Modelled from the spec: the Whitelist of §3, a general set of identifiers
and a mapping from image name to its own set; the type
`vulnerabilitiesWhitelist` is declared outside `utils.go`. -/
structure Whitelist where
  general : List String
  images : List (String × List String)
deriving DecidableEq, Repr

/-- Modelled from the spec: §4.2 step 2, a vulnerability is at or above the
threshold when `SeverityMap[severity] <= SeverityMap[threshold]`. -/
def atOrAboveThreshold (threshold : String) (v : Vulnerability) : Bool :=
  decide (severityRank v.severity ≤ severityRank threshold)

/-- Modelled from the spec: §4.2 step 3, the identifier is in the general set
or in the set scoped to exactly this image name. -/
def isWhitelisted (w : Whitelist) (image : String) (v : Vulnerability) : Bool :=
  w.general.contains v.id || ((w.images.lookup image).getD []).contains v.id

/-- Modelled from the spec: §4.2 step 4, the unapproved set, in input order;
the function that computes it is not in `utils.go`. -/
def unapproved (vulns : List Vulnerability) (image : String) (w : Whitelist)
    (threshold : String) : List Vulnerability :=
  vulns.filter (fun v => atOrAboveThreshold threshold v && !isWhitelisted w image v)

/-! ## Lemmas: `filepath.Clean` -/

theorem splitSep_ne_nil (l : List Char) : splitSep l ≠ [] := by
  cases l with
  | nil => simp [splitSep]
  | cons c cs =>
    simp only [splitSep]
    split
    · simp
    · split <;> simp

/-- Elements are what lies between separators: splitting at a separator
splits the list of elements. -/
theorem splitSep_append (a b : List Char) :
    splitSep (a ++ PathSeparator :: b) = splitSep a ++ splitSep b := by
  induction a with
  | nil =>
    simp only [List.nil_append, splitSep]
    rcases hb : splitSep b with _ | ⟨e, es⟩
    · exact absurd hb (splitSep_ne_nil b)
    · simp
  | cons c cs ih =>
    rcases ha : splitSep cs with _ | ⟨e, es⟩
    · exact absurd ha (splitSep_ne_nil cs)
    · by_cases hc : c = PathSeparator <;> simp [splitSep, hc, ih, ha]

/-- No element of a path contains a separator. -/
theorem splitSep_no_sep (l : List Char) : ∀ e ∈ splitSep l, PathSeparator ∉ e := by
  induction l with
  | nil => simp [splitSep]
  | cons c cs ih =>
    simp only [splitSep]
    rcases ha : splitSep cs with _ | ⟨e, es⟩
    · simp
    · rw [ha] at ih
      by_cases hc : c = PathSeparator
      · simp only [hc, if_true]
        intro x hx
        rcases List.mem_cons.mp hx with h | h
        · simp [h]
        · exact ih x h
      · simp only [hc, if_false]
        intro x hx
        rcases List.mem_cons.mp hx with h | h
        · rw [h]
          intro hmem
          rcases List.mem_cons.mp hmem with h1 | h1
          · exact hc h1.symm
          · exact ih e (List.mem_cons_self _ _) h1
        · exact ih x (List.mem_cons_of_mem _ h)

/-- Where the inner loop of the `..` case stops: not before `dotdot`, and
either at `dotdot` or at a separator. -/
theorem backtrackLoop_spec (dotdot : Nat) (out : List Char) (w : Nat) (h : dotdot ≤ w) :
    dotdot ≤ backtrackLoop dotdot out w ∧ backtrackLoop dotdot out w ≤ w ∧
    (backtrackLoop dotdot out w = dotdot ∨
      out.get? (backtrackLoop dotdot out w) = some PathSeparator) := by
  induction w with
  | zero =>
    have hd : dotdot = 0 := Nat.le_zero.mp h
    simp [backtrackLoop, hd]
  | succ w ih =>
    unfold backtrackLoop
    by_cases hc : dotdot < w + 1 ∧ out.get? (w + 1) ≠ some PathSeparator
    · rw [if_pos hc]
      have := ih (Nat.lt_succ_iff.mp hc.1)
      exact ⟨this.1, Nat.le_succ_of_le this.2.1, this.2.2⟩
    · rw [if_neg hc]
      refine ⟨h, le_refl _, ?_⟩
      by_cases hlt : dotdot < w + 1
      · right
        by_contra hne
        exact hc ⟨hlt, hne⟩
      · left
        omega

theorem goodStart_of_initial {p out : List Char} (h : goodStart out) (hp : p <+: out)
    (h1 : p ≠ ['.']) : goodStart p := by
  obtain ⟨t, ht⟩ := hp
  refine ⟨h1, ?_, ?_⟩
  · intro x hx
    subst hx
    exact h.2.1 (x ++ t) ht.symm
  · intro x hx
    subst hx
    exact h.2.2 (x ++ t) ht.symm

theorem goodStart_append_of_two {out : List Char} (h : goodStart out) (h2 : 2 ≤ out.length)
    (x : List Char) : goodStart (out ++ x) := by
  match out, h, h2 with
  | a :: b :: rest, h, _ =>
    refine ⟨by simp, ?_, ?_⟩
    · intro r hr
      simp only [List.cons_append, List.cons.injEq] at hr
      exact h.2.1 rest (by rw [hr.1, hr.2.1])
    · intro r hr
      simp only [List.cons_append, List.cons.injEq] at hr
      exact h.2.2 rest (by rw [hr.1, hr.2.1])

theorem goodStart_cons {a : Char} (h1 : a ≠ '.') (h2 : a ≠ PathSeparator) (x : List Char) :
    goodStart (a :: x) := by
  refine ⟨?_, ?_, ?_⟩
  · intro h
    simp only [List.cons.injEq] at h
    exact h1 h.1
  · intro r h
    simp only [List.cons.injEq] at h
    exact h1 h.1
  · intro r h
    simp only [List.cons.injEq] at h
    exact h2 h.1

/-- A path element other than `.` starts a buffer well. -/
theorem goodStart_elem {elem : List Char} (h1 : elem ≠ ['.']) (hsep : PathSeparator ∉ elem) :
    goodStart elem := by
  refine ⟨h1, ?_, ?_⟩
  · intro r h
    subst h
    exact hsep (by simp)
  · intro r h
    subst h
    exact hsep (by simp)

theorem goodStart_root_cons {c : Char} (hc : c ≠ PathSeparator) (cs : List Char) :
    goodStart (PathSeparator :: c :: cs) := by
  refine ⟨by simp, ?_, ?_⟩
  · intro r h
    simp [PathSeparator] at h
  · intro r h
    simp only [List.cons.injEq, true_and] at h
    exact hc h.1

/-- Backtracking keeps the invariant of the loop of `filepath.Clean`. -/
theorem cleanInv_backtrack (rooted : Bool) (out : List Char) (d : Nat)
    (h : cleanInv rooted out d) (hlt : d < out.length) :
    cleanInv rooted (backtrack d out) d := by
  have hspec := backtrackLoop_spec d out (out.length - 1) (by omega)
  obtain ⟨hg, _, hr, hn⟩ := h
  unfold backtrack
  generalize backtrackLoop d out (out.length - 1) = r at hspec
  obtain ⟨h1, h2, h3⟩ := hspec
  have hpre : out.take r <+: out := List.take_prefix r out
  have hlen : (out.take r).length = r := by
    rw [List.length_take]
    omega
  have hne : out.take r ≠ ['.'] := by
    intro heq
    have hr1 : r = 1 := by rw [← hlen, heq]; rfl
    subst hr1
    match out, hg, hlt, h2, h3, heq, hr, hn with
    | [], _, hlt, _, _, _, _, _ => simp at hlt
    | [a], _, _, h2, _, _, _, _ => simp at h2
    | a :: b :: rest, hg, _, _, h3, heq, hr, hn =>
      simp only [List.take, List.cons.injEq, and_true] at heq
      subst heq
      cases rooted with
      | true =>
        obtain ⟨_, x, hx⟩ := hr rfl
        simp [PathSeparator] at hx
      | false =>
        rcases h3 with h3 | h3
        · rcases (hn rfl).2 with h4 | h4 <;> omega
        · simp only [List.get?_cons_succ, List.get?_cons_zero, Option.some.injEq] at h3
          exact hg.2.1 rest (by rw [h3])
  refine ⟨goodStart_of_initial hg hpre hne, by omega, ?_, ?_⟩
  · intro hroot
    obtain ⟨hd, x, hx⟩ := hr hroot
    refine ⟨hd, ?_⟩
    subst hx
    match r, h1 with
    | r + 1, _ => exact ⟨x.take r, rfl⟩
    | 0, h1 => omega
  · intro hrel
    refine ⟨?_, (hn hrel).2⟩
    intro x hx
    obtain ⟨t, ht⟩ := hpre
    rw [hx] at ht
    exact (hn hrel).1 (x ++ t) ht.symm

/-- One turn of the loop of `filepath.Clean` keeps its invariant, for an
element that contains no separator. -/
theorem cleanInv_step (rooted : Bool) (st : CleanState) (elem : List Char)
    (h : cleanInv rooted st.out st.dotdot) (hsep : PathSeparator ∉ elem) :
    cleanInv rooted (cleanStep rooted st elem).out (cleanStep rooted st elem).dotdot := by
  obtain ⟨out, d⟩ := st
  simp only at h
  unfold cleanStep
  by_cases h0 : elem = []
  · rw [if_pos h0]; exact h
  rw [if_neg h0]
  by_cases h1 : elem = ['.']
  · rw [if_pos h1]; exact h
  rw [if_neg h1]
  by_cases h2 : elem = ['.', '.']
  · rw [if_pos h2]
    by_cases hlt : d < out.length
    · simp only [hlt, if_true]
      exact cleanInv_backtrack rooted out d h hlt
    · simp only [hlt, if_false]
      cases rooted with
      | true => exact h
      | false =>
        simp only [Bool.false_eq_true, if_false]
        obtain ⟨hg, hle, _, hn⟩ := h
        have hn' := hn rfl
        match out, hg, hn' with
        | [], _, _ =>
          refine ⟨⟨?_, ?_, ?_⟩, ?_, ?_, ?_⟩ <;> simp [PathSeparator]
        | [a], hg, hn' =>
          have ha1 : a ≠ '.' := fun hc => hg.1 (by rw [hc])
          have ha2 : a ≠ PathSeparator := fun hc => hn'.1 [] (by rw [hc])
          refine ⟨?_, ?_, ?_, ?_⟩
          · exact goodStart_cons ha1 ha2 _
          · simp
          · intro hc; cases hc
          · intro _
            exact ⟨fun r hr => ha2 (by simp at hr; exact hr.1), Or.inr (by simp)⟩
        | a :: b :: rest, hg, hn' =>
          refine ⟨?_, ?_, ?_, ?_⟩
          · simp only [List.length_cons, Nat.zero_lt_succ, if_true, List.append_assoc]
            exact goodStart_append_of_two hg (by simp) _
          · simp
          · intro hc; cases hc
          · intro _
            refine ⟨?_, Or.inr (by simp)⟩
            intro r hr
            simp only [List.length_cons, Nat.zero_lt_succ, if_true, List.cons_append,
              List.cons.injEq] at hr
            exact hn'.1 (b :: rest) (by rw [hr.1])
  · rw [if_neg h2]
    obtain ⟨hg, hle, hr, hn⟩ := h
    obtain ⟨c, cs, rfl⟩ : ∃ c cs, elem = c :: cs := by
      cases elem with
      | nil => exact absurd rfl h0
      | cons c cs => exact ⟨c, cs, rfl⟩
    have hc : c ≠ PathSeparator := fun hc => hsep (by rw [hc]; exact List.mem_cons_self _ _)
    cases rooted with
    | true =>
      obtain ⟨hd, x, hx⟩ := hr rfl
      subst hx
      match x, hg, hle with
      | [], _, hle =>
        simp only [List.length_singleton, bne_self_eq_false, Bool.and_false, Bool.not_true,
          Bool.false_and, Bool.or_self, Bool.false_eq_true, if_false, List.singleton_append]
        refine ⟨goodStart_root_cons hc cs, ?_, ?_, ?_⟩
        · simp [hd]
        · intro _
          exact ⟨hd, _, rfl⟩
        · intro hrel
          cases hrel
      | a :: rest, hg, hle =>
        have hif : (true && (PathSeparator :: a :: rest).length != 1 ||
            !true && (PathSeparator :: a :: rest).length != 0) = true := by simp
        simp only [hif, if_true, List.append_assoc]
        refine ⟨goodStart_append_of_two hg (by simp) _, ?_, ?_, ?_⟩
        · simp [hd]
        · intro _
          exact ⟨hd, _, rfl⟩
        · intro hrel
          cases hrel
    | false =>
      have hn' := hn rfl
      match out, hg, hn', hle with
      | [], _, _, hle =>
        simp only [List.length_nil, bne_self_eq_false, Bool.and_false, Bool.not_false,
          Bool.false_and, Bool.or_self, Bool.false_eq_true, if_false, List.nil_append]
        refine ⟨goodStart_elem h1 hsep, ?_, ?_, ?_⟩
        · simp only [List.length_nil] at hle
          omega
        · intro hrel
          cases hrel
        · intro _
          refine ⟨?_, hn'.2⟩
          intro y hy
          simp only [List.cons.injEq] at hy
          exact hc hy.1
      | [a], hg, hn', hle =>
        have ha1 : a ≠ '.' := fun hc => hg.1 (by rw [hc])
        have ha2 : a ≠ PathSeparator := fun hc => hn'.1 [] (by rw [hc])
        have hif : (false && [a].length != 1 || !false && [a].length != 0) = true := by simp
        simp only [hif, if_true, List.append_assoc, List.singleton_append]
        refine ⟨goodStart_cons ha1 ha2 _, ?_, ?_, ?_⟩
        · simp only [List.length_singleton] at hle
          simp
          omega
        · intro hrel
          cases hrel
        · intro _
          refine ⟨?_, hn'.2⟩
          intro y hy
          simp only [List.cons_append, List.cons.injEq] at hy
          exact ha2 hy.1
      | a :: b :: rest, hg, hn', hle =>
        have hif : (false && (a :: b :: rest).length != 1 ||
            !false && (a :: b :: rest).length != 0) = true := by simp
        simp only [hif, if_true, List.append_assoc]
        refine ⟨goodStart_append_of_two hg (by simp) _, ?_, ?_, ?_⟩
        · simp only [List.length_cons] at hle
          simp
          omega
        · intro hrel
          cases hrel
        · intro _
          refine ⟨?_, hn'.2⟩
          intro y hy
          simp only [List.cons_append, List.cons.injEq] at hy
          exact hn'.1 (b :: rest) (by rw [hy.1])

/-- The loop of `filepath.Clean` keeps its invariant over any run of elements
without separators. -/
theorem cleanInv_foldl (rooted : Bool) (elems : List (List Char)) (st : CleanState)
    (h : cleanInv rooted st.out st.dotdot) (hsep : ∀ e ∈ elems, PathSeparator ∉ e) :
    cleanInv rooted (elems.foldl (cleanStep rooted) st).out
      (elems.foldl (cleanStep rooted) st).dotdot := by
  induction elems generalizing st with
  | nil => exact h
  | cons e es ih =>
    simp only [List.foldl_cons]
    exact ih _ (cleanInv_step rooted st e h (hsep e (List.mem_cons_self _ _)))
      (fun x hx => hsep x (List.mem_cons_of_mem _ hx))

/-- The buffer of `filepath.Clean` starts well when the loop ends. -/
theorem cleanRun_goodStart (path : List Char) : goodStart (cleanRun path).out := by
  cases path with
  | nil =>
    refine ⟨?_, ?_, ?_⟩ <;> simp [cleanRun]
  | cons c cs =>
    simp only [cleanRun]
    by_cases hc : c = PathSeparator
    · rw [if_pos hc]
      refine (cleanInv_foldl true (splitSep cs) _ ?_ (splitSep_no_sep cs)).1
      refine ⟨⟨?_, ?_, ?_⟩, ?_, ?_, ?_⟩ <;> simp [PathSeparator]
    · rw [if_neg hc]
      refine (cleanInv_foldl false (splitSep (c :: cs)) _ ?_ (splitSep_no_sep (c :: cs))).1
      refine ⟨⟨?_, ?_, ?_⟩, ?_, ?_, ?_⟩ <;> simp

/-- A cleaned path begins neither with `./` nor with `//`. -/
theorem cleanChars_start (path : List Char) :
    (∀ r, cleanChars path ≠ '.' :: PathSeparator :: r) ∧
    (∀ r, cleanChars path ≠ PathSeparator :: PathSeparator :: r) := by
  unfold cleanChars
  by_cases h : (cleanRun path).out = []
  · rw [if_pos h]
    constructor <;> intro r hr <;> simp at hr
  · rw [if_neg h]
    exact (cleanRun_goodStart path).2

/-- What `filepath.Join(a, b)` returns begins neither with `./` nor with `//`. -/
theorem Join_start (a b : String) :
    (∀ r, (Join a b).data ≠ '.' :: PathSeparator :: r) ∧
    (∀ r, (Join a b).data ≠ PathSeparator :: PathSeparator :: r) := by
  unfold Join
  by_cases ha : a ≠ ""
  · rw [if_pos ha]
    exact cleanChars_start _
  · rw [if_neg ha]
    by_cases hb : b ≠ ""
    · rw [if_pos hb]
      exact cleanChars_start _
    · rw [if_neg hb]
      constructor <;> intro r hr <;> simp at hr

/-- Cleaning `t/x` for a non-empty `t` is cleaning `t` and going on with the
elements of `x`. -/
theorem cleanRun_append (c : Char) (cs x : List Char) :
    cleanRun (c :: cs ++ PathSeparator :: x) =
      (splitSep x).foldl (cleanStep (decide (c = PathSeparator))) (cleanRun (c :: cs)) := by
  simp only [List.cons_append, cleanRun]
  by_cases hc : c = PathSeparator
  · simp only [hc, if_true, decide_True]
    rw [splitSep_append, List.foldl_append]
  · simp only [hc, if_false, decide_False]
    rw [← List.cons_append, splitSep_append, List.foldl_append]

/-- Joining `.`, `./` or, to a non-empty path, the empty name gives the
cleaned path itself. -/
theorem Join_dot (target : String) :
    Join target "." = Clean target ∧ Join target "./" = Clean target ∧
      (target ≠ "" → Join target "" = Clean target) := by
  by_cases ht : target = ""
  · subst ht
    refine ⟨by decide, by decide, fun h => absurd rfl h⟩
  · have hd : target.data ≠ [] := by
      intro h
      apply ht
      cases target
      simp_all
    obtain ⟨c, cs, hcs⟩ : ∃ c cs, target.data = c :: cs := by
      cases h : target.data with
      | nil => exact absurd h hd
      | cons c cs => exact ⟨c, cs, rfl⟩
    have key : ∀ x : String, (∀ e ∈ splitSep x.data, e = [] ∨ e = ['.']) →
        Join target x = Clean target := by
      intro x hx
      unfold Join
      rw [if_pos ht]
      unfold Clean cleanChars
      have h1 : (target ++ "/" ++ x).data = c :: cs ++ PathSeparator :: x.data := by
        simp [String.data_append, hcs, PathSeparator]
      have hskip : ∀ (elems : List (List Char)) (st : CleanState) (b : Bool),
          (∀ e ∈ elems, e = [] ∨ e = ['.']) → elems.foldl (cleanStep b) st = st := by
        intro elems
        induction elems with
        | nil => intro st b _; rfl
        | cons e es ih =>
          intro st b hes
          have hstep : cleanStep b st e = st := by
            rcases hes e (List.mem_cons_self _ _) with h | h <;> simp [cleanStep, h]
          rw [List.foldl_cons, hstep]
          exact ih st b (fun y hy => hes y (List.mem_cons_of_mem _ hy))
      rw [h1, cleanRun_append, hskip _ _ _ hx, hcs]
    refine ⟨key "." (by decide), key "./" (by decide), fun _ => key "" (by decide)⟩

/-- The model of `filepath.Clean` agrees with the Go standard library on the
cases of its own test tables for Unix (`cleantests` and `nonwincleantests` of
`path/filepath/path_test.go`). -/
theorem Clean_conformance :
    ["", "abc", "abc/def", "a/b/c", ".", "..", "../..", "../../abc", "/abc", "/",
      "abc/", "abc/def/", "a/b/c/", "./", "../", "../../", "/abc/",
      "abc//def//ghi", "//abc", "///abc", "//abc//",
      "abc/./def", "/./abc/def", "abc/.",
      "abc/def/ghi/../jkl", "abc/def/../ghi/../jkl", "abc/def/..", "abc/def/../..",
      "/abc/def/../..", "abc/def/../../..", "/abc/def/../../..",
      "abc/def/../../../ghi/jkl/../../../mno", "/../abc",
      "abc/./../def", "abc//./../def", "abc/../../././../def"].map Clean =
    [".", "abc", "abc/def", "a/b/c", ".", "..", "../..", "../../abc", "/abc", "/",
      "abc", "abc/def", "a/b/c", ".", "..", "../..", "/abc",
      "abc/def/ghi", "/abc", "/abc", "/abc",
      "abc/def", "/abc/def", "abc",
      "abc/def/jkl", "abc/jkl", "abc", ".",
      "/", "..", "/",
      "../../mno", "/abc",
      "def", "def", "../../def"] := by
  decide

/-- The model of `filepath.Join` agrees with the Go standard library on the
cases of two elements of its own test table (`jointests` of
`path/filepath/path_test.go`). -/
theorem Join_conformance :
    [Join "a" "b", Join "a" "", Join "" "b", Join "/" "a", Join "/" "a/b", Join "/" "",
      Join "/a" "b", Join "a" "/b", Join "/a" "/b", Join "a/" "b", Join "a/" "",
      Join "" ""] =
    ["a/b", "a", "b", "/a", "/a/b", "/", "/a/b", "a/b", "/a/b", "a/b", "a", ""] := by
  decide

/-! ## Lemmas: the loop of `filepath.Clean`, by characters and by elements -/

/-- The elements of a text that starts with an element `e` (characters up to
the first separator). -/
theorem splitSep_takeWhile (l : List Char) :
    splitSep l = l.takeWhile (fun x => x != PathSeparator) ::
      (match l.dropWhile (fun x => x != PathSeparator) with
        | [] => []
        | _ :: r => splitSep r) := by
  induction l with
  | nil => rfl
  | cons c cs ih =>
    by_cases hc : c = PathSeparator
    · subst hc
      have h1 : splitSep (PathSeparator :: cs) = [] :: splitSep cs := by
        have := splitSep_append [] cs
        simpa [splitSep] using this
      rw [h1]
      simp [List.takeWhile, List.dropWhile]
    · have hne : (c != PathSeparator) = true := by simpa using hc
      rw [List.takeWhile_cons, List.dropWhile_cons, hne]
      simp only [if_true]
      have hs : splitSep (c :: cs) =
          (c :: (splitSep cs).headD []) :: (splitSep cs).tail := by
        simp only [splitSep]
        rcases hcs : splitSep cs with _ | ⟨e, es⟩
        · exact absurd hcs (splitSep_ne_nil cs)
        · simp [hc]
      rw [hs, ih]
      simp

theorem cleanStep_nil (rooted : Bool) (st : CleanState) : cleanStep rooted st [] = st := by
  simp [cleanStep]

theorem cleanStep_dot (rooted : Bool) (st : CleanState) : cleanStep rooted st ['.'] = st := by
  simp [cleanStep]

/-- Reading the path one character position at a time, as the Go source
does, is reading it one element at a time. -/
theorem cleanLoop_eq (rooted : Bool) (fuel : Nat) (rest : List Char) (st : CleanState)
    (h : rest.length < fuel) :
    cleanLoop rooted fuel rest st = (splitSep rest).foldl (cleanStep rooted) st := by
  induction fuel generalizing rest st with
  | zero => omega
  | succ fuel ih =>
    cases rest with
    | nil => simp [cleanLoop, splitSep, cleanStep]
    | cons c cs =>
      have hlen : cs.length < fuel := by simp at h; omega
      have hsep : ∀ r : List Char, splitSep (PathSeparator :: r) = [] :: splitSep r := by
        intro r
        have := splitSep_append [] r
        simpa [splitSep] using this
      unfold cleanLoop
      by_cases h1 : c = PathSeparator
      · rw [if_pos h1, ih cs st hlen, h1, hsep]
        simp [cleanStep]
      rw [if_neg h1]
      by_cases h2 : c = '.' ∧ (cs = [] ∨ cs.head? = some PathSeparator)
      · rw [if_pos h2, ih cs st hlen]
        obtain ⟨hc, hcs⟩ := h2
        subst hc
        rcases hcs with hcs | hcs
        · subst hcs
          simp [splitSep, cleanStep, PathSeparator]
        · cases cs with
          | nil => simp at hcs
          | cons d ds =>
            simp only [List.head?_cons, Option.some.injEq] at hcs
            subst hcs
            have := splitSep_append ['.'] ds
            simp only [List.singleton_append] at this
            rw [this, hsep]
            simp [splitSep, cleanStep, PathSeparator]
      rw [if_neg h2]
      by_cases h3 : c = '.' ∧ cs.head? = some '.' ∧
          (cs.tail = [] ∨ cs.tail.head? = some PathSeparator)
      · rw [if_pos h3]
        obtain ⟨hc, hd, hcs⟩ := h3
        subst hc
        cases cs with
        | nil => simp at hd
        | cons d ds =>
          simp only [List.head?_cons, Option.some.injEq] at hd
          subst hd
          simp only [List.tail_cons] at hcs ⊢
          have hlen2 : ds.length < fuel := by simp at hlen; omega
          rw [ih ds _ hlen2]
          have hstep : cleanStep rooted st ['.', '.'] =
              (if st.dotdot < st.out.length then
                { out := backtrack st.dotdot st.out, dotdot := st.dotdot }
              else if rooted then st
              else
                { out := (if 0 < st.out.length then st.out ++ [PathSeparator] else st.out) ++
                    ['.', '.'],
                  dotdot := ((if 0 < st.out.length then st.out ++ [PathSeparator]
                    else st.out) ++ ['.', '.']).length }) := by
            simp [cleanStep]
          rw [← hstep]
          rcases hcs with hcs | hcs
          · subst hcs
            simp [splitSep, PathSeparator, cleanStep_nil]
          · cases ds with
            | nil => simp at hcs
            | cons x xs =>
              simp only [List.head?_cons, Option.some.injEq] at hcs
              subst hcs
              have := splitSep_append ['.', '.'] xs
              simp only [List.cons_append, List.nil_append] at this
              rw [this, hsep]
              simp [splitSep, PathSeparator, cleanStep_nil]
      rw [if_neg h3]
      -- a real element
      have htw := splitSep_takeWhile (c :: cs)
      have hdl : ((c :: cs).dropWhile (fun x => x != PathSeparator)).length < fuel := by
        have h1' : (c != PathSeparator) = true := by simpa using h1
        rw [List.dropWhile_cons, h1']
        simp only [if_true]
        exact lt_of_le_of_lt (List.dropWhile_sublist _).length_le hlen
      rw [ih _ _ hdl, htw]
      generalize he : (c :: cs).takeWhile (fun x => x != PathSeparator) = e
      have he0 : e ≠ [] := by
        have h1' : (c != PathSeparator) = true := by simpa using h1
        rw [← he, List.takeWhile_cons, h1']
        simp
      have hedot : e ≠ ['.'] := by
        intro hc
        apply h2
        have h1' : (c != PathSeparator) = true := by simpa using h1
        rw [← he, List.takeWhile_cons, h1'] at hc
        simp only [if_true, List.cons.injEq] at hc
        refine ⟨hc.1, ?_⟩
        cases cs with
        | nil => exact Or.inl rfl
        | cons d ds =>
          right
          rw [List.takeWhile_cons] at hc
          by_cases hd : (d != PathSeparator) = true
          · rw [hd] at hc
            simp at hc
          · simp only [List.head?_cons, Option.some.injEq]
            simpa using hd
      have hedd : e ≠ ['.', '.'] := by
        intro hc
        apply h3
        have h1' : (c != PathSeparator) = true := by simpa using h1
        rw [← he, List.takeWhile_cons, h1'] at hc
        simp only [if_true, List.cons.injEq] at hc
        refine ⟨hc.1, ?_⟩
        cases cs with
        | nil => simp at hc
        | cons d ds =>
          rw [List.takeWhile_cons] at hc
          by_cases hd : (d != PathSeparator) = true
          · rw [hd] at hc
            simp only [if_true, List.cons.injEq] at hc
            refine ⟨by rw [hc.2.1]; rfl, ?_⟩
            simp only [List.tail_cons]
            cases ds with
            | nil => exact Or.inl rfl
            | cons x xs =>
              right
              have hc2 := hc.2.2
              rw [List.takeWhile_cons] at hc2
              by_cases hx : (x != PathSeparator) = true
              · rw [hx] at hc2
                simp at hc2
              · simp only [List.head?_cons, Option.some.injEq]
                simpa using hx
          · rw [if_neg hd] at hc
            simp at hc
      have hstep : cleanStep rooted st e =
          { out := (if (rooted && st.out.length != 1) || (!rooted && st.out.length != 0) then
                st.out ++ [PathSeparator]
              else st.out) ++ e,
            dotdot := st.dotdot } := by
        simp [cleanStep, he0, hedot, hedd]
      rw [List.foldl_cons, hstep]
      rcases hd : (c :: cs).dropWhile (fun x => x != PathSeparator) with _ | ⟨x, xs⟩
      · simp [splitSep, cleanStep]
      · have hx : x = PathSeparator := by
          have := List.head_dropWhile_not (fun x => x != PathSeparator) (c :: cs)
            (by rw [hd]; simp)
          simp only [hd, List.head_cons] at this
          simpa using this
        subst hx
        rw [hsep]
        simp [cleanStep]

/-- The model of `filepath.Clean` by elements computes what the Go function
computes character by character. -/
theorem Clean_eq_CleanGo (path : String) : Clean path = CleanGo path := by
  unfold Clean CleanGo cleanChars
  cases hp : path.data with
  | nil => rfl
  | cons c cs =>
    simp only [cleanRun]
    by_cases hc : c = PathSeparator
    · simp only [hc, if_true]
      rw [cleanLoop_eq true _ cs _ (Nat.lt_succ_self _)]
      split <;> rfl
    · simp only [hc, if_false]
      rw [cleanLoop_eq false _ (c :: cs) _ (by simp)]
      split <;> rfl

/-! ## Lemmas: the shape of a cleaned path -/

/-- The inner loop of the `..` case stops at `j` when `j` is `dotdot` or holds
a separator and no separator lies above `j`. -/
theorem backtrackLoop_eq (dotdot : Nat) (out : List Char) (j w : Nat) (hdj : dotdot ≤ j)
    (hjw : j ≤ w) (hj : j = dotdot ∨ out.get? j = some PathSeparator)
    (habove : ∀ i, j < i → i ≤ w → out.get? i ≠ some PathSeparator) :
    backtrackLoop dotdot out w = j := by
  induction w with
  | zero =>
    have : j = 0 := Nat.le_zero.mp hjw
    simp [backtrackLoop, this]
  | succ w ih =>
    unfold backtrackLoop
    by_cases hjeq : j = w + 1
    · subst hjeq
      rcases hj with hj | hj
      · rw [if_neg]
        intro hc
        omega
      · rw [if_neg]
        intro hc
        exact hc.2 hj
    · have hjw' : j ≤ w := by omega
      rw [if_pos ⟨by omega, habove (w + 1) (by omega) (le_refl _)⟩]
      exact ih hjw' (fun i h1 h2 => habove i h1 (by omega))

/-- Backtracking undoes the appending of an element. -/
theorem backtrack_pushElem (n d : Nat) (X a : List Char) (hn : n ≤ d) (hd : d ≤ X.length)
    (ha : a ≠ []) (hsep : PathSeparator ∉ a) :
    backtrack d (pushElem n X a) = X := by
  have hapos : 0 < a.length := List.length_pos.mpr ha
  have hget : ∀ (Y : List Char) (i : Nat), Y.length ≤ i →
      (Y ++ a).get? i ≠ some PathSeparator := by
    intro Y i hi hc
    rw [List.get?_eq_getElem?, List.getElem?_append_right hi] at hc
    exact hsep (List.getElem?_mem hc)
  unfold backtrack pushElem
  by_cases hX : X.length ≠ n
  · rw [if_pos hX]
    have hj : backtrackLoop d (X ++ [PathSeparator] ++ a)
        ((X ++ [PathSeparator] ++ a).length - 1) = X.length := by
      apply backtrackLoop_eq d _ X.length _ hd
      · simp
      · right
        rw [List.get?_eq_getElem?, List.append_assoc,
          List.getElem?_append_right (le_refl _)]
        simp
      · intro i h1 _
        exact hget (X ++ [PathSeparator]) i (by simp; omega)
    rw [hj]
    simp
  · rw [if_neg hX]
    have hXn : X.length = n := not_not.mp hX
    have hdX : d = X.length := by omega
    have hj : backtrackLoop d (X ++ a) ((X ++ a).length - 1) = X.length := by
      apply backtrackLoop_eq d _ X.length _ hd
      · simp; omega
      · left
        exact hdX.symm
      · intro i h1 _
        exact hget X i (by omega)
    rw [hj]
    simp

theorem buildPath_concat (base : List Char) (elems : List (List Char)) (a : List Char) :
    buildPath base (elems ++ [a]) = pushElem base.length (buildPath base elems) a := by
  simp [buildPath, List.foldl_append]

theorem length_pushElem_le (n : Nat) (X a : List Char) :
    X.length ≤ (pushElem n X a).length := by
  unfold pushElem
  split
  · simp only [List.length_append, List.length_singleton]
    omega
  · simp only [List.length_append]
    omega

theorem length_pushElem_lt (n : Nat) (X a : List Char) (ha : a ≠ []) :
    X.length < (pushElem n X a).length := by
  have hapos : 0 < a.length := List.length_pos.mpr ha
  unfold pushElem
  split
  · simp only [List.length_append, List.length_singleton]
    omega
  · simp only [List.length_append]
    omega

/-- A longer list of elements gives a buffer at least as long. -/
theorem length_buildPath_append (base : List Char) (xs ys : List (List Char)) :
    (buildPath base xs).length ≤ (buildPath base (xs ++ ys)).length := by
  induction ys using List.reverseRecOn with
  | nil => simp
  | append_singleton ys a ih =>
    rw [← List.append_assoc, buildPath_concat]
    exact le_trans ih (length_pushElem_le _ _ _)

theorem length_base_le_buildPath (base : List Char) (xs : List (List Char)) :
    base.length ≤ (buildPath base xs).length := by
  have := length_buildPath_append base [] xs
  simpa [buildPath] using this

/-- The turns of the loop of `filepath.Clean`, on a buffer and an index. -/
theorem cleanStep_normal (rooted : Bool) (out : List Char) (d : Nat) (e : List Char)
    (he : normalElem e) :
    cleanStep rooted ⟨out, d⟩ e = ⟨pushElem (cleanBase rooted).length out e, d⟩ := by
  unfold cleanStep
  rw [if_neg he.1, if_neg he.2.1, if_neg he.2.2.1]
  cases rooted <;> simp [pushElem, cleanBase]

theorem cleanStep_dotdot_back (rooted : Bool) (out : List Char) (d : Nat)
    (h : d < out.length) :
    cleanStep rooted ⟨out, d⟩ ['.', '.'] = ⟨backtrack d out, d⟩ := by
  simp [cleanStep, h]

theorem cleanStep_dotdot_root (out : List Char) (d : Nat) (h : ¬ d < out.length) :
    cleanStep true ⟨out, d⟩ ['.', '.'] = ⟨out, d⟩ := by
  simp [cleanStep, h]

theorem cleanStep_dotdot_rel (out : List Char) (d : Nat) (h : ¬ d < out.length) :
    cleanStep false ⟨out, d⟩ ['.', '.'] =
      ⟨pushElem 0 out ['.', '.'], (pushElem 0 out ['.', '.']).length⟩ := by
  have hpos : (0 < out.length) = (out.length ≠ 0) := by
    apply propext
    omega
  simp only [cleanStep, h, pushElem, hpos]
  simp

/-- The proper elements of a state grow the buffer past `dotdot`. -/
theorem cleanRep_lt (rooted : Bool) (st : CleanState) (k : Nat) (ns : List (List Char))
    (a : List Char) (h : cleanRep rooted st k (ns ++ [a])) : st.dotdot < st.out.length := by
  obtain ⟨hn, _, ho, hd⟩ := h
  rw [ho, hd, ← List.append_assoc, buildPath_concat]
  exact lt_of_le_of_lt (length_buildPath_append _ _ _)
    (length_pushElem_lt _ _ _ (hn a (by simp)).1)

/-- One turn of the loop of `filepath.Clean` on a state of the given shape:
an empty element and `.` leave it, a proper element is added to the proper
elements, and `..` removes the last proper element or, when there is none,
is dropped (rooted path) or added to the `..` elements (other paths). -/
theorem cleanRep_step (rooted : Bool) (st : CleanState) (k : Nat) (ns : List (List Char))
    (e : List Char) (h : cleanRep rooted st k ns) (hsep : PathSeparator ∉ e) :
    ∃ k2 ns2, cleanRep rooted (cleanStep rooted st e) k2 ns2 := by
  by_cases h0 : e = []
  · exact ⟨k, ns, by simpa [cleanStep, h0] using h⟩
  by_cases h1 : e = ['.']
  · exact ⟨k, ns, by simpa [cleanStep, h1] using h⟩
  by_cases h2 : e = ['.', '.']
  · subst h2
    rcases List.eq_nil_or_concat ns with hns | ⟨init, a, hns⟩
    · subst hns
      obtain ⟨out, d⟩ := st
      obtain ⟨hn, hk, ho, hd⟩ := h
      simp only [List.append_nil] at ho
      simp only at hd
      have hnlt : ¬ d < out.length := by rw [ho, hd]; omega
      cases rooted with
      | true =>
        rw [cleanStep_dotdot_root _ _ hnlt]
        exact ⟨k, [], hn, hk, by simpa using ho, hd⟩
      | false =>
        rw [cleanStep_dotdot_rel _ _ hnlt]
        refine ⟨k + 1, [], by simp, by simp, ?_, ?_⟩
        · simp only [List.append_nil, List.replicate_succ', buildPath_concat, cleanBase]
          rw [ho]
          simp [cleanBase]
        · simp only [List.replicate_succ', buildPath_concat, cleanBase]
          rw [ho]
          simp [cleanBase]
    · rw [List.concat_eq_append] at hns
      subst hns
      have hlt := cleanRep_lt rooted st k init a h
      obtain ⟨out, d⟩ := st
      obtain ⟨hn, hk, ho, hd⟩ := h
      simp only at ho hd hlt
      rw [cleanStep_dotdot_back _ _ _ hlt]
      refine ⟨k, init, fun x hx => hn x (by simp [hx]), hk, ?_, hd⟩
      simp only
      rw [ho, ← List.append_assoc, buildPath_concat]
      apply backtrack_pushElem
      · rw [hd]; exact length_base_le_buildPath _ _
      · rw [hd]; exact length_buildPath_append _ _ _
      · exact (hn a (by simp)).1
      · exact (hn a (by simp)).2.2.2
  · have he : normalElem e := ⟨h0, h1, h2, hsep⟩
    obtain ⟨out, d⟩ := st
    obtain ⟨hn, hk, ho, hd⟩ := h
    simp only at ho hd
    rw [cleanStep_normal _ _ _ _ he]
    refine ⟨k, ns ++ [e], ?_, hk, ?_, hd⟩
    · intro x hx
      rcases List.mem_append.mp hx with hx | hx
      · exact hn x hx
      · rw [List.mem_singleton.mp hx]; exact he
    · simp only
      rw [← List.append_assoc, buildPath_concat, ho]

/-- Every state the loop of `filepath.Clean` reaches has that shape. -/
theorem cleanRep_foldl (rooted : Bool) (elems : List (List Char)) (st : CleanState)
    (k : Nat) (ns : List (List Char)) (h : cleanRep rooted st k ns)
    (hsep : ∀ e ∈ elems, PathSeparator ∉ e) :
    ∃ k2 ns2, cleanRep rooted (elems.foldl (cleanStep rooted) st) k2 ns2 := by
  induction elems generalizing st k ns with
  | nil => exact ⟨k, ns, h⟩
  | cons e es ih =>
    obtain ⟨k1, ns1, h1⟩ := cleanRep_step rooted st k ns e h (hsep e (List.mem_cons_self _ _))
    exact ih _ k1 ns1 h1 (fun x hx => hsep x (List.mem_cons_of_mem _ hx))

/-- The state in which `filepath.Clean` leaves its loop on a non-empty path. -/
theorem cleanRep_cleanRun (c : Char) (cs : List Char) :
    ∃ k ns, cleanRep (decide (c = PathSeparator)) (cleanRun (c :: cs)) k ns := by
  simp only [cleanRun]
  by_cases hc : c = PathSeparator
  · simp only [hc, if_true, decide_True]
    exact cleanRep_foldl true (splitSep cs) _ 0 []
      ⟨by simp, by simp, by simp [buildPath, cleanBase], by simp [buildPath, cleanBase]⟩
      (splitSep_no_sep cs)
  · simp only [hc, if_false, decide_False]
    exact cleanRep_foldl false (splitSep (c :: cs)) _ 0 []
      ⟨by simp, by simp, by simp [buildPath, cleanBase], by simp [buildPath, cleanBase]⟩
      (splitSep_no_sep (c :: cs))

/-- When one text up to its first separator is a prefix of another, the parts
before the separators agree. -/
theorem prefix_sep_inj (a x r r2 : List Char) (ha : PathSeparator ∉ a)
    (hx : PathSeparator ∉ x) (h : a ++ PathSeparator :: r <+: x ++ PathSeparator :: r2) :
    a = x ∧ r <+: r2 := by
  induction a generalizing x with
  | nil =>
    cases x with
    | nil =>
      simp only [List.nil_append] at h
      exact ⟨rfl, (List.cons_prefix_cons.mp h).2⟩
    | cons y ys =>
      simp only [List.nil_append, List.cons_append] at h
      have := (List.cons_prefix_cons.mp h).1
      exact absurd (by rw [this]; exact List.mem_cons_self _ _) hx
  | cons c cs ih =>
    cases x with
    | nil =>
      simp only [List.nil_append, List.cons_append] at h
      have := (List.cons_prefix_cons.mp h).1
      exact absurd (by rw [← this]; exact List.mem_cons_self _ _) ha
    | cons y ys =>
      simp only [List.cons_append] at h
      obtain ⟨hcy, hrest⟩ := List.cons_prefix_cons.mp h
      obtain ⟨h1, h2⟩ := ih ys (fun hm => ha (List.mem_cons_of_mem _ hm))
        (fun hm => hx (List.mem_cons_of_mem _ hm)) hrest
      exact ⟨by rw [hcy, h1], h2⟩

/-- A text ending in a separator is no prefix of a text without separator. -/
theorem not_prefix_of_no_sep (b y : List Char) (hy : PathSeparator ∉ y) :
    ¬ (b ++ [PathSeparator] <+: y) := by
  intro h
  exact hy (h.subset (by simp))

/-- The separator `filepath.Clean` writes before an element: none at the
initial length of the buffer. -/
theorem pushElem_eq (n : Nat) (X a : List Char) :
    pushElem n X a = X ++ ((if X.length ≠ n then [PathSeparator] else []) ++ a) := by
  unfold pushElem
  split <;> simp

theorem pushElem_pushElem (n : Nat) (X a b : List Char) (hX : n ≤ X.length) (ha : a ≠ []) :
    pushElem n (pushElem n X a) b =
      X ++ ((if X.length ≠ n then [PathSeparator] else []) ++ (a ++ PathSeparator :: b)) := by
  have hlt := length_pushElem_lt n X a ha
  have hne : (pushElem n X a).length ≠ n := by omega
  rw [pushElem_eq n (pushElem n X a) b, if_pos hne, pushElem_eq n X a]
  simp

/-- The elements of a path made of `..` elements are those elements. -/
theorem splitSep_buildPath_dotdot (k : Nat) :
    splitSep (buildPath [] (List.replicate (k + 1) ['.', '.'])) =
      List.replicate (k + 1) ['.', '.'] := by
  induction k with
  | zero => decide
  | succ k ih =>
    rw [List.replicate_succ' (k + 1), buildPath_concat]
    have hpos : (buildPath [] (List.replicate (k + 1) ['.', '.'])).length ≠
        ([] : List Char).length := by
      have h1 : buildPath [] (List.replicate (k + 1) ['.', '.']) =
          pushElem 0 (buildPath [] (List.replicate k ['.', '.'])) ['.', '.'] := by
        rw [List.replicate_succ' k, buildPath_concat]
        rfl
      have h2 := length_pushElem_lt 0 (buildPath [] (List.replicate k ['.', '.'])) ['.', '.']
        (by simp)
      rw [h1]
      simp only [List.length_nil]
      omega
    rw [pushElem_eq, if_pos hpos]
    simp only [List.singleton_append]
    rw [splitSep_append, ih]
    have hdd : splitSep ['.', '.'] = [['.', '.']] := by decide
    rw [hdd]

/-- Under a destination whose cleaned form is `.` or `/`, no name passes the
containment check. -/
theorem contained_degenerate (target : String) (h : Clean target = "." ∨ Clean target = "/")
    (name : String) : contained target name = false := by
  cases hc : contained target name with
  | false => rfl
  | true =>
    exfalso
    unfold contained HasPrefix at hc
    obtain ⟨t, ht⟩ := List.isPrefixOf_iff_prefix.mp hc
    rcases h with h | h
    · rw [h] at ht
      exact (Join_start target name).1 t ht.symm
    · rw [h] at ht
      exact (Join_start target name).2 t ht.symm

/-- The buffer of `filepath.Clean` after the elements `..`, `..`, `etc`,
`passwd`, from a state with at least two proper elements. -/
theorem cleanRun_traversal_two (rooted : Bool) (st : CleanState) (k : Nat)
    (init : List (List Char)) (a b : List Char)
    (h : cleanRep rooted st k (init ++ [a] ++ [b])) :
    ¬ (st.out ++ [PathSeparator] <+:
      ([['.', '.'], ['.', '.'], ['e', 't', 'c'], ['p', 'a', 's', 's', 'w', 'd']].foldl
        (cleanStep rooted) st).out) := by
  have hlt1 := cleanRep_lt rooted st k (init ++ [a]) b h
  obtain ⟨out, d⟩ := st
  obtain ⟨hn, hk, ho, hd⟩ := h
  simp only at ho hd hlt1
  have ha : normalElem a := hn a (by simp)
  have hb : normalElem b := hn b (by simp)
  have hE : normalElem ['e', 't', 'c'] := by
    refine ⟨by simp, by simp, by simp, by simp [PathSeparator]⟩
  have hP : normalElem ['p', 'a', 's', 's', 'w', 'd'] := by
    refine ⟨by simp, by simp, by simp, by simp [PathSeparator]⟩
  generalize hX : buildPath (cleanBase rooted) (List.replicate k ['.', '.'] ++ init) = X at *
  have hXa : buildPath (cleanBase rooted) (List.replicate k ['.', '.'] ++ (init ++ [a])) =
      pushElem (cleanBase rooted).length X a := by
    rw [← List.append_assoc, buildPath_concat, hX]
  have hout : out = pushElem (cleanBase rooted).length
      (pushElem (cleanBase rooted).length X a) b := by
    rw [ho, ← List.append_assoc, buildPath_concat, hXa]
  have hbase : (cleanBase rooted).length ≤ d := by
    rw [hd]; exact length_base_le_buildPath _ _
  have hdX : d ≤ X.length := by
    rw [hd, ← hX]; exact length_buildPath_append _ _ _
  have hXlen : (cleanBase rooted).length ≤ X.length := le_trans hbase hdX
  have hdXa : d ≤ (pushElem (cleanBase rooted).length X a).length :=
    le_trans hdX (length_pushElem_le _ _ _)
  have hlt2 : d < (pushElem (cleanBase rooted).length X a).length :=
    lt_of_le_of_lt hdX (length_pushElem_lt _ _ _ ha.1)
  simp only [List.foldl_cons, List.foldl_nil]
  rw [cleanStep_dotdot_back _ _ _ hlt1, hout,
    backtrack_pushElem _ _ _ _ hbase hdXa hb.1 hb.2.2.2,
    cleanStep_dotdot_back _ _ _ hlt2,
    backtrack_pushElem _ _ _ _ hbase hdX ha.1 ha.2.2.2,
    cleanStep_normal _ _ _ _ hE, cleanStep_normal _ _ _ _ hP]
  simp only
  rw [pushElem_pushElem _ _ _ _ hXlen ha.1, pushElem_pushElem _ _ _ _ hXlen hE.1]
  intro hpre
  rw [List.append_assoc, List.prefix_append_right_inj, List.append_assoc,
    List.prefix_append_right_inj, List.append_assoc] at hpre
  have h1 := prefix_sep_inj a ['e', 't', 'c'] (b ++ [PathSeparator])
    ['p', 'a', 's', 's', 'w', 'd'] ha.2.2.2 hE.2.2.2 (by simpa using hpre)
  exact not_prefix_of_no_sep b _ hP.2.2.2 h1.2

/-- The same from a state with exactly one proper element: the check can
only pass when the path is rooted and the element is `etc`. -/
theorem cleanRun_traversal_one (rooted : Bool) (st : CleanState) (k : Nat) (a : List Char)
    (h : cleanRep rooted st k [a])
    (hpre : st.out ++ [PathSeparator] <+:
      ([['.', '.'], ['.', '.'], ['e', 't', 'c'], ['p', 'a', 's', 's', 'w', 'd']].foldl
        (cleanStep rooted) st).out) :
    rooted = true ∧ st.out = ['/', 'e', 't', 'c'] := by
  have hlt1 := cleanRep_lt rooted st k [] a (by simpa using h)
  obtain ⟨out, d⟩ := st
  obtain ⟨hn, hk, ho, hd⟩ := h
  simp only at ho hd hlt1 hpre ⊢
  have ha : normalElem a := hn a (by simp)
  have hE : normalElem ['e', 't', 'c'] := by
    refine ⟨by simp, by simp, by simp, by simp [PathSeparator]⟩
  have hP : normalElem ['p', 'a', 's', 's', 'w', 'd'] := by
    refine ⟨by simp, by simp, by simp, by simp [PathSeparator]⟩
  generalize hX : buildPath (cleanBase rooted) (List.replicate k ['.', '.']) = X at *
  have hout : out = pushElem (cleanBase rooted).length X a := by
    rw [ho, buildPath_concat, hX]
  have hbase : (cleanBase rooted).length ≤ d := by
    rw [hd, ← hX]; exact length_base_le_buildPath _ _
  have hdX : d ≤ X.length := by rw [hd]
  have hnlt : ¬ d < X.length := by rw [hd]; omega
  simp only [List.foldl_cons, List.foldl_nil] at hpre
  rw [cleanStep_dotdot_back _ _ _ hlt1, hout,
    backtrack_pushElem _ _ _ _ hbase hdX ha.1 ha.2.2.2] at hpre
  cases rooted with
  | true =>
    have hk0 : k = 0 := hk rfl
    subst hk0
    have hXv : X = [PathSeparator] := by
      rw [← hX]; simp [buildPath, cleanBase]
    subst hXv
    rw [cleanStep_dotdot_root _ _ hnlt, cleanStep_normal _ _ _ _ hE,
      cleanStep_normal _ _ _ _ hP] at hpre
    simp only [cleanBase, if_true, List.length_singleton, pushElem_eq, ne_eq,
      not_true_eq_false, if_false, List.nil_append, List.length_append, List.length_cons,
      List.length_nil, List.singleton_append, List.cons_append] at hpre
    have hpre2 : a ++ PathSeparator :: [] <+:
        ['e', 't', 'c'] ++ PathSeparator :: ['p', 'a', 's', 's', 'w', 'd'] := by
      have := (List.cons_prefix_cons.mp hpre).2
      simpa [PathSeparator] using this
    have h1 := prefix_sep_inj a ['e', 't', 'c'] [] _ ha.2.2.2 hE.2.2.2 hpre2
    refine ⟨rfl, ?_⟩
    rw [hout, h1.1]
    simp [pushElem, cleanBase, PathSeparator]
  | false =>
    exfalso
    rw [cleanStep_dotdot_rel _ _ hnlt, cleanStep_normal _ _ _ _ hE,
      cleanStep_normal _ _ _ _ hP] at hpre
    simp only at hpre
    have hc0 : (cleanBase false).length = 0 := by simp [cleanBase]
    rw [hc0] at hpre
    have hdd : (['.', '.'] : List Char) ≠ [] := by simp
    have hlt3 := length_pushElem_lt 0 X ['.', '.'] hdd
    rw [pushElem_pushElem 0 (pushElem 0 X ['.', '.']) _ _ (Nat.zero_le _) hE.1,
      if_pos (by omega), pushElem_eq 0 X a, pushElem_eq 0 X ['.', '.']] at hpre
    simp only [List.append_assoc] at hpre
    rw [List.prefix_append_right_inj, List.prefix_append_right_inj] at hpre
    have h1 := prefix_sep_inj a ['.', '.'] [] _ ha.2.2.2 (by simp [PathSeparator])
      (by simpa using hpre)
    exact ha.2.2.1 h1.1

/-- The entry name `../../etc/passwd` passes the containment check only
under a destination whose cleaned form is `/etc` or is made of `..` elements
only. -/
theorem contained_traversal (target : String)
    (h : contained target "../../etc/passwd" = true) :
    Clean target = "/etc" ∨ dotdotOnly (Clean target) = true := by
  by_cases ht : target = ""
  · subst ht
    revert h
    decide
  have hd : target.data ≠ [] := by
    intro h
    apply ht
    cases target
    simp_all
  obtain ⟨c, cs, hcs⟩ : ∃ c cs, target.data = c :: cs := by
    cases h : target.data with
    | nil => exact absurd h hd
    | cons c cs => exact ⟨c, cs, rfl⟩
  have hname : ("../../etc/passwd" : String).data =
      ['.', '.', '/', '.', '.', '/', 'e', 't', 'c', '/', 'p', 'a', 's', 's', 'w', 'd'] := rfl
  have hsplit : splitSep
      ['.', '.', '/', '.', '.', '/', 'e', 't', 'c', '/', 'p', 'a', 's', 's', 'w', 'd'] =
      [['.', '.'], ['.', '.'], ['e', 't', 'c'], ['p', 'a', 's', 's', 'w', 'd']] := by decide
  have hjoin : (target ++ "/" ++ "../../etc/passwd").data = c :: cs ++ PathSeparator ::
      ['.', '.', '/', '.', '.', '/', 'e', 't', 'c', '/', 'p', 'a', 's', 's', 'w', 'd'] := by
    simp [String.data_append, hcs, PathSeparator]
  have hpre0 := h
  unfold contained HasPrefix Join at hpre0
  rw [if_pos ht] at hpre0
  have hpre := List.isPrefixOf_iff_prefix.mp hpre0
  have hsing : (String.singleton PathSeparator).data = [PathSeparator] := rfl
  simp only [Clean, String.data_append, hsing, hjoin, hcs] at hpre
  unfold cleanChars at hpre
  rw [cleanRun_append, hsplit] at hpre
  obtain ⟨k, ns, hrep⟩ := cleanRep_cleanRun c cs
  have hClean : Clean target = String.mk (cleanChars (c :: cs)) := by
    unfold Clean
    rw [hcs]
  generalize hst : cleanRun (c :: cs) = st at hpre hrep
  generalize hfin : ([['.', '.'], ['.', '.'], ['e', 't', 'c'],
    ['p', 'a', 's', 's', 'w', 'd']].foldl (cleanStep (decide (c = PathSeparator))) st) = fin
    at hpre
  rcases List.eq_nil_or_concat ns with hns | ⟨init1, b, hns⟩
  · -- no proper element: the cleaned destination is `/`, `.` or made of `..` elements
    subst hns
    obtain ⟨_, hk, ho, _⟩ := hrep
    simp only [List.append_nil] at ho
    cases k with
    | zero =>
      exfalso
      have hdeg : Clean target = "." ∨ Clean target = "/" := by
        rw [hClean]
        unfold cleanChars
        rw [hst, ho]
        by_cases hc : c = PathSeparator
        · right
          simp [hc, buildPath, cleanBase]
          try rfl
        · left
          simp [hc, buildPath, cleanBase]
          try rfl
      rw [contained_degenerate target hdeg] at h
      cases h
    | succ k =>
      right
      have hroot : decide (c = PathSeparator) = false := by
        cases hdec : decide (c = PathSeparator) with
        | false => rfl
        | true => exact absurd (hk hdec) (by simp)
      rw [hroot] at ho
      have hbase : cleanBase false = [] := by simp [cleanBase]
      rw [hbase] at ho
      have hne : st.out ≠ [] := by
        intro hempty
        have h2 := length_pushElem_lt 0 (buildPath [] (List.replicate k ['.', '.'])) ['.', '.']
          (by simp)
        rw [List.replicate_succ', buildPath_concat] at ho
        rw [hempty] at ho
        simp only [List.length_nil] at ho
        rw [← ho] at h2
        simp at h2
      rw [hClean]
      unfold dotdotOnly cleanChars
      rw [hst, if_neg hne, ho]
      simp only
      rw [splitSep_buildPath_dotdot]
      simp
  · rw [List.concat_eq_append] at hns
    subst hns
    have hlt := cleanRep_lt _ st k init1 b hrep
    have hne : st.out ≠ [] := by
      intro hempty
      rw [hempty] at hlt
      simp at hlt
    rw [if_neg hne] at hpre
    have hpre2 : st.out ++ [PathSeparator] <+: fin.out := by
      by_cases hf : fin.out = []
      · rw [if_pos hf] at hpre
        have hl := hpre.length_le
        have : 0 < st.out.length := List.length_pos.mpr hne
        simp only [List.length_append, List.length_singleton, List.length_cons,
          List.length_nil] at hl
        omega
      · rw [if_neg hf] at hpre
        exact hpre
    rcases List.eq_nil_or_concat init1 with hin | ⟨init, a, hin⟩
    · subst hin
      left
      rw [← hfin] at hpre2
      have h1 := cleanRun_traversal_one _ st k b (by simpa using hrep) hpre2
      rw [hClean]
      unfold cleanChars
      rw [hst, if_neg hne, h1.2]
    · rw [List.concat_eq_append] at hin
      subst hin
      exfalso
      rw [← hfin] at hpre2
      exact cleanRun_traversal_two _ st k init a b hrep hpre2

/-! ## Lemmas: the elements of a cleaned path -/

/-- A text without separator is a single element. -/
theorem splitSep_of_no_sep (a : List Char) (h : PathSeparator ∉ a) : splitSep a = [a] := by
  induction a with
  | nil => rfl
  | cons c cs ih =>
    have hc : c ≠ PathSeparator := fun hc => h (by rw [hc]; exact List.mem_cons_self _ _)
    have hcs : PathSeparator ∉ cs := fun hm => h (List.mem_cons_of_mem _ hm)
    simp [splitSep, ih hcs, hc]

/-- An element of the buffer: a proper element or `..`. -/
theorem elem_props_of_rep (k : Nat) (ns : List (List Char)) (hn : ∀ a ∈ ns, normalElem a) :
    ∀ a ∈ List.replicate k ['.', '.'] ++ ns, a ≠ [] ∧ PathSeparator ∉ a := by
  intro a ha
  rcases List.mem_append.mp ha with h | h
  · rw [(List.mem_replicate.mp h).2]
    exact ⟨by simp, by simp [PathSeparator]⟩
  · exact ⟨(hn a h).1, (hn a h).2.2.2⟩

/-- A buffer holding at least one element is longer than the initial one. -/
theorem length_buildPath_lt (base : List Char) (cs : List (List Char)) (hne : cs ≠ [])
    (hcs : ∀ a ∈ cs, a ≠ [] ∧ PathSeparator ∉ a) :
    base.length < (buildPath base cs).length := by
  rcases List.eq_nil_or_concat cs with h | ⟨init, a, h⟩
  · exact absurd h hne
  · rw [List.concat_eq_append] at h
    subst h
    rw [buildPath_concat]
    exact lt_of_le_of_lt (length_base_le_buildPath base init)
      (length_pushElem_lt _ _ _ (hcs a (by simp)).1)

/-- The elements of a buffer that holds at least one element are the elements
appended to it, after an empty first element when the path is rooted. -/
theorem splitSep_buildPath (rooted : Bool) (cs : List (List Char)) (hne : cs ≠ [])
    (hcs : ∀ a ∈ cs, a ≠ [] ∧ PathSeparator ∉ a) :
    splitSep (buildPath (cleanBase rooted) cs) = (if rooted then [[]] else []) ++ cs := by
  induction cs using List.reverseRecOn with
  | nil => exact absurd rfl hne
  | append_singleton init a ih =>
    have ha := hcs a (by simp)
    have hinit : ∀ x ∈ init, x ≠ [] ∧ PathSeparator ∉ x := fun x hx => hcs x (by simp [hx])
    rw [buildPath_concat, pushElem_eq]
    by_cases hi : init = []
    · subst hi
      have hlen : ¬ (buildPath (cleanBase rooted) []).length ≠ (cleanBase rooted).length := by
        simp [buildPath]
      rw [if_neg hlen]
      cases rooted with
      | true =>
        simp only [buildPath, List.foldl_nil, cleanBase, if_true, List.nil_append,
          List.singleton_append]
        have h1 : splitSep (PathSeparator :: a) = [] :: splitSep a := by
          have := splitSep_append [] a
          simpa [splitSep] using this
        rw [h1, splitSep_of_no_sep a ha.2]
      | false =>
        simp only [buildPath, List.foldl_nil, cleanBase, Bool.false_eq_true, if_false,
          List.nil_append]
        exact splitSep_of_no_sep a ha.2
    · have hlen : (buildPath (cleanBase rooted) init).length ≠ (cleanBase rooted).length := by
        have := length_buildPath_lt (cleanBase rooted) init hi hinit
        omega
      rw [if_pos hlen]
      simp only [List.singleton_append]
      rw [splitSep_append, ih hi hinit, splitSep_of_no_sep a ha.2, List.append_assoc]

/-- The cleaned form of a non-empty path, when it is neither `.` nor `/`, is a
buffer of at least one element: `k` elements `..` (none for a rooted path)
followed by proper elements. -/
theorem cleanChars_rep (c : Char) (cs : List Char)
    (hdeg : cleanChars (c :: cs) ≠ ['.'] ∧ cleanChars (c :: cs) ≠ [PathSeparator]) :
    ∃ k ns, (∀ a ∈ ns, normalElem a) ∧ (decide (c = PathSeparator) = true → k = 0) ∧
      List.replicate k ['.', '.'] ++ ns ≠ [] ∧
      cleanChars (c :: cs) = buildPath (cleanBase (decide (c = PathSeparator)))
        (List.replicate k ['.', '.'] ++ ns) := by
  obtain ⟨k, ns, hn, hk, ho, _⟩ := cleanRep_cleanRun c cs
  have hcc : cleanChars (c :: cs) =
      if (cleanRun (c :: cs)).out = [] then ['.'] else (cleanRun (c :: cs)).out := rfl
  refine ⟨k, ns, hn, hk, ?_, ?_⟩
  · intro hempty
    rw [hempty] at ho
    rw [hcc, ho] at hdeg
    by_cases hc : c = PathSeparator
    · simp [hc, buildPath, cleanBase] at hdeg
    · simp [hc, buildPath, cleanBase] at hdeg
  · by_cases hout : (cleanRun (c :: cs)).out = []
    · rw [hcc, if_pos hout] at hdeg
      exact absurd rfl hdeg.1
    · rw [hcc, if_neg hout, ho]

/-- The containment check is sound unless the cleaned destination is made of
`..` elements only: a joined path that passes it consists of the elements of
the cleaned destination followed by at least one more element, all of them
proper (no `.`, no `..`, nothing empty), so it names something strictly
inside the destination. -/
theorem contained_sound (target name : String) (h : contained target name = true)
    (hdots : dotdotOnly (Clean target) = false) :
    ∃ rest : List (List Char), rest ≠ [] ∧ (∀ e ∈ rest, normalElem e) ∧
      splitSep (Join target name).data = splitSep (Clean target).data ++ rest := by
  -- the destination is not degenerate
  have hdeg : ¬ (Clean target = "." ∨ Clean target = "/") := by
    intro hd
    rw [contained_degenerate target hd name] at h
    cases h
  have hpre0 := h
  unfold contained HasPrefix at hpre0
  obtain ⟨r, hr⟩ := List.isPrefixOf_iff_prefix.mp hpre0
  have hsing : (String.singleton PathSeparator).data = [PathSeparator] := rfl
  simp only [String.data_append, hsing, List.append_assoc, List.singleton_append] at hr
  refine ⟨splitSep r, splitSep_ne_nil r, ?_, by rw [← hr, splitSep_append]⟩
  -- the cleaned destination as a buffer
  have htne : target.data ≠ [] := by
    intro hempty
    apply hdeg
    left
    unfold Clean
    rw [hempty]
    rfl
  obtain ⟨c, cs, hcs⟩ : ∃ c cs, target.data = c :: cs := by
    cases h : target.data with
    | nil => exact absurd h htne
    | cons c cs => exact ⟨c, cs, rfl⟩
  have hT : (Clean target).data = cleanChars (c :: cs) := by
    unfold Clean
    rw [hcs]
  have hTdeg : cleanChars (c :: cs) ≠ ['.'] ∧ cleanChars (c :: cs) ≠ [PathSeparator] := by
    constructor
    · intro hc
      apply hdeg
      left
      show String.mk (cleanChars target.data) = "."
      rw [hcs, hc]
      try rfl
    · intro hc
      apply hdeg
      right
      show String.mk (cleanChars target.data) = "/"
      rw [hcs, hc]
      try rfl
  obtain ⟨k, ns, hn, hk, hne, hTrep⟩ := cleanChars_rep c cs hTdeg
  -- the joined path as a buffer
  have ht : target ≠ "" := by
    intro hempty
    rw [hempty] at htne
    exact htne rfl
  have hJ : (Join target name).data =
      cleanChars (c :: (cs ++ PathSeparator :: name.data)) := by
    unfold Join
    rw [if_pos ht]
    unfold Clean
    simp [String.data_append, hcs, PathSeparator]
  have hJdeg : cleanChars (c :: (cs ++ PathSeparator :: name.data)) ≠ ['.'] ∧
      cleanChars (c :: (cs ++ PathSeparator :: name.data)) ≠ [PathSeparator] := by
    have hTpos : 0 < (Clean target).data.length := by
      rw [hT, hTrep]
      exact lt_of_le_of_lt (Nat.zero_le _)
        (length_buildPath_lt _ _ hne (elem_props_of_rep k ns hn))
    constructor
    · intro hc
      rw [hJ, hc] at hr
      have := congrArg List.length hr
      simp only [List.length_append, List.length_cons, List.length_nil] at this
      omega
    · intro hc
      rw [hJ, hc] at hr
      have := congrArg List.length hr
      simp only [List.length_append, List.length_cons, List.length_nil] at this
      omega
  obtain ⟨k2, ns2, hn2, _, hne2, hJrep⟩ :=
    cleanChars_rep c (cs ++ PathSeparator :: name.data) hJdeg
  -- the elements of both
  have hsT := splitSep_buildPath (decide (c = PathSeparator)) _ hne (elem_props_of_rep k ns hn)
  have hsJ := splitSep_buildPath (decide (c = PathSeparator)) _ hne2
    (elem_props_of_rep k2 ns2 hn2)
  have hsplit : splitSep (Join target name).data =
      splitSep (Clean target).data ++ splitSep r := by
    rw [← hr, splitSep_append]
  rw [hJ, hJrep, hsJ, hT, hTrep, hsT, List.append_assoc] at hsplit
  have hcs2 := List.append_cancel_left hsplit
  -- the destination has a proper element
  have hns : ns ≠ [] := by
    intro hempty
    subst hempty
    simp only [List.append_nil] at hne hTrep hsT
    cases hroot : decide (c = PathSeparator) with
    | true =>
      rw [hk hroot] at hne
      exact hne rfl
    | false =>
      have : dotdotOnly (Clean target) = true := by
        unfold dotdotOnly
        rw [hT, hTrep, hsT, hroot]
        simp
      rw [this] at hdots
      cases hdots
  obtain ⟨init, a, hinit⟩ : ∃ init a, ns = init ++ [a] := by
    rcases List.eq_nil_or_concat ns with h | ⟨init, a, h⟩
    · exact absurd h hns
    · exact ⟨init, a, by rw [h, List.concat_eq_append]⟩
  have ha : normalElem a := hn a (by rw [hinit]; simp)
  -- what follows a proper element in the joined path is proper
  intro e he
  have hcs3 : List.replicate k2 ['.', '.'] ++ ns2 =
      (List.replicate k ['.', '.'] ++ init ++ [a]) ++ splitSep r := by
    rw [hcs2, hinit]
    simp
  rcases List.append_eq_append_iff.mp hcs3 with ⟨a', h1, h2⟩ | ⟨c', h1, _⟩
  · exact hn2 e (by rw [h2]; exact List.mem_append_right _ he)
  · exfalso
    have hmem : a ∈ List.replicate k2 ['.', '.'] := by
      rw [h1]
      simp
    exact ha.2.2.1 (List.mem_replicate.mp hmem).2

/-- Over elements none of which is `..`, the loop of `filepath.Clean` only
appends: from a buffer past its initial length it adds, after a separator
each, the elements that name something, and nothing else. -/
theorem cleanStep_foldl_proper (rooted : Bool) (elems : List (List Char)) (out : List Char)
    (d : Nat) (hlen : (cleanBase rooted).length < out.length)
    (h : ∀ e ∈ elems, e ≠ ['.', '.'] ∧ PathSeparator ∉ e) :
    ∃ suf : List Char,
      elems.foldl (cleanStep rooted) { out := out, dotdot := d } =
        { out := out ++ suf, dotdot := d } ∧
      (elems.filter (fun e => decide (e ≠ []) && decide (e ≠ ['.'])) ≠ [] →
        ∃ t, suf = PathSeparator :: t) ∧
      splitSep (out ++ suf) =
        splitSep out ++ elems.filter (fun e => decide (e ≠ []) && decide (e ≠ ['.'])) := by
  induction elems generalizing out with
  | nil => exact ⟨[], by simp, by simp, by simp⟩
  | cons e es ih =>
    have hes : ∀ x ∈ es, x ≠ ['.', '.'] ∧ PathSeparator ∉ x :=
      fun x hx => h x (List.mem_cons_of_mem _ hx)
    have he := h e (List.mem_cons_self _ _)
    by_cases hp : e ≠ [] ∧ e ≠ ['.']
    · have hn : normalElem e := ⟨hp.1, hp.2, he.1, he.2⟩
      have hne : out.length ≠ (cleanBase rooted).length := by omega
      have hstep : cleanStep rooted { out := out, dotdot := d } e =
          { out := out ++ PathSeparator :: e, dotdot := d } := by
        rw [cleanStep_normal _ _ _ _ hn, pushElem_eq, if_pos hne]
        simp
      have hlen2 : (cleanBase rooted).length < (out ++ PathSeparator :: e).length := by
        simp only [List.length_append, List.length_cons]
        omega
      obtain ⟨suf, h1, h2, h3⟩ := ih (out ++ PathSeparator :: e) hlen2 hes
      refine ⟨PathSeparator :: e ++ suf, ?_, fun _ => ⟨e ++ suf, rfl⟩, ?_⟩
      · rw [List.foldl_cons, hstep, h1]
        simp
      · have hf : (e :: es).filter (fun e => decide (e ≠ []) && decide (e ≠ ['.'])) =
            e :: es.filter (fun e => decide (e ≠ []) && decide (e ≠ ['.'])) := by
          rw [List.filter_cons]
          simp [hp.1, hp.2]
        have h4 : out ++ (PathSeparator :: e ++ suf) = (out ++ PathSeparator :: e) ++ suf := by
          simp
        rw [hf, h4, h3, splitSep_append, splitSep_of_no_sep e he.2]
        simp
    · have hstep : cleanStep rooted { out := out, dotdot := d } e =
          { out := out, dotdot := d } := by
        by_cases h0 : e = []
        · rw [h0]; exact cleanStep_nil _ _
        · have h1 : e = ['.'] := by
            by_contra hc
            exact hp ⟨h0, hc⟩
          rw [h1]; exact cleanStep_dot _ _
      have hf : (e :: es).filter (fun e => decide (e ≠ []) && decide (e ≠ ['.'])) =
          es.filter (fun e => decide (e ≠ []) && decide (e ≠ ['.'])) := by
        rw [List.filter_cons]
        by_cases h0 : e = []
        · simp [h0]
        · have h1 : e = ['.'] := by
            by_contra hc
            exact hp ⟨h0, hc⟩
          simp [h1]
      obtain ⟨suf, h1, h2, h3⟩ := ih out hlen hes
      refine ⟨suf, ?_, ?_, ?_⟩
      · rw [List.foldl_cons, hstep, h1]
      · rw [hf]; exact h2
      · rw [hf]; exact h3

/-- A name of an entry of a directory tree passes the containment check
under every destination whose cleaned form is neither `.` nor `/`, and the
joined path is the cleaned destination followed by the elements of the name
that name something: the same relative path under the destination. -/
theorem contained_of_treeName (target name : String) (ht : treeName name = true)
    (hdest : Clean target ≠ "." ∧ Clean target ≠ "/") :
    contained target name = true ∧
    splitSep (Join target name).data = splitSep (Clean target).data ++ properElems name := by
  have htne : target.data ≠ [] := by
    intro hempty
    apply hdest.1
    unfold Clean
    rw [hempty]
    rfl
  have htn : target ≠ "" := by
    intro hempty
    rw [hempty] at htne
    exact htne rfl
  obtain ⟨c, cs, hcs⟩ : ∃ c cs, target.data = c :: cs := by
    cases h : target.data with
    | nil => exact absurd h htne
    | cons c cs => exact ⟨c, cs, rfl⟩
  have hT : (Clean target).data = cleanChars (c :: cs) := by
    unfold Clean
    rw [hcs]
  have hTdeg : cleanChars (c :: cs) ≠ ['.'] ∧ cleanChars (c :: cs) ≠ [PathSeparator] := by
    constructor
    · intro hc
      apply hdest.1
      show String.mk (cleanChars target.data) = "."
      rw [hcs, hc]
      try rfl
    · intro hc
      apply hdest.2
      show String.mk (cleanChars target.data) = "/"
      rw [hcs, hc]
      try rfl
  obtain ⟨k, ns, hn, _, hne, hTrep⟩ := cleanChars_rep c cs hTdeg
  have hout : cleanChars (c :: cs) = (cleanRun (c :: cs)).out := by
    have hcc : cleanChars (c :: cs) =
        if (cleanRun (c :: cs)).out = [] then ['.'] else (cleanRun (c :: cs)).out := rfl
    by_cases ho : (cleanRun (c :: cs)).out = []
    · rw [hcc, if_pos ho] at hTdeg
      exact absurd rfl hTdeg.1
    · rw [hcc, if_neg ho]
  have hlen : (cleanBase (decide (c = PathSeparator))).length <
      (cleanRun (c :: cs)).out.length := by
    rw [← hout, hTrep]
    exact length_buildPath_lt _ _ hne (elem_props_of_rep k ns hn)
  have hall : ∀ e ∈ splitSep name.data, e ≠ ['.', '.'] ∧ PathSeparator ∉ e := by
    intro e he
    refine ⟨?_, splitSep_no_sep name.data e he⟩
    unfold treeName at ht
    simp only [Bool.and_eq_true, List.all_eq_true, decide_eq_true_eq] at ht
    exact ht.1 e he
  have hsome : (splitSep name.data).filter
      (fun e => decide (e ≠ []) && decide (e ≠ ['.'])) ≠ [] := by
    unfold treeName at ht
    simp only [Bool.and_eq_true, Bool.not_eq_true', List.isEmpty_eq_false] at ht
    exact ht.2
  obtain ⟨suf, h1, h2, h3⟩ := cleanStep_foldl_proper (decide (c = PathSeparator))
    (splitSep name.data) (cleanRun (c :: cs)).out (cleanRun (c :: cs)).dotdot hlen hall
  obtain ⟨t, hsuf⟩ := h2 hsome
  have hJ : (Join target name).data = (cleanRun (c :: cs)).out ++ suf := by
    unfold Join
    rw [if_pos htn]
    unfold Clean cleanChars
    have hd : (target ++ "/" ++ name).data = c :: cs ++ PathSeparator :: name.data := by
      simp [String.data_append, hcs, PathSeparator]
    rw [hd]
    simp only
    rw [cleanRun_append, h1]
    have hnonempty : (cleanRun (c :: cs)).out ++ suf ≠ [] := by
      rw [hsuf]
      simp
    simp only
    rw [if_neg hnonempty]
  constructor
  · unfold contained HasPrefix
    have hsing : (String.singleton PathSeparator).data = [PathSeparator] := rfl
    rw [List.isPrefixOf_iff_prefix, String.data_append, hsing, hJ, hT, hout, hsuf]
    exact ⟨t, by simp⟩
  · rw [hJ, hT, hout, h3]
    rfl

/-! ## Lemmas: the loop of `untar` -/

/-- The text of a path never has that same text followed by a separator as a
string prefix. -/
theorem not_hasPrefix_self_sep (p : String) :
    HasPrefix p (p ++ String.singleton PathSeparator) = false := by
  cases h : HasPrefix p (p ++ String.singleton PathSeparator) with
  | false => rfl
  | true =>
    exfalso
    unfold HasPrefix at h
    have hp := List.isPrefixOf_iff_prefix.mp h
    have hlen := hp.length_le
    simp [String.data_append, String.singleton] at hlen

/-- Reading the entries `pre ++ rest` is reading `pre` and then, when that
raised no error, reading `rest` from the state reached; an error within `pre`
ends the loop in the state and with the error of `pre` alone. -/
theorem untarLoop_append {σ : Type} (fs : FileSystem σ) (target : String)
    (readErr : Option String) (pre rest : List Entry) (s : σ) :
    untarLoop fs target readErr (pre ++ rest) s =
      match untarLoop fs target none pre s with
      | (s1, none) => untarLoop fs target readErr rest s1
      | (s1, some err) => (s1, some err) := by
  induction pre generalizing s with
  | nil => simp [untarLoop]
  | cons e es ih =>
    simp only [List.cons_append, untarLoop]
    by_cases hc : contained target e.name = true
    · simp only [hc, Bool.not_true, Bool.false_eq_true, if_false]
      by_cases hd : e.isDir = true
      · simp only [hd, if_true]
        rcases hm : fs.MkdirAll s (Join target e.name) e.mode with ⟨s1, _ | err⟩
        · exact ih _
        · simp only
      · simp only [hd, Bool.false_eq_true, if_false]
        rcases ho : fs.OpenFile s (Join target e.name) e.mode with ⟨s1, _ | err⟩
        · simp only
          rcases hcp : fs.Copy s1 (Join target e.name) e.content with ⟨s2, _ | err⟩
          · exact ih _
          · simp only
        · simp only
    · simp [hc]

/-- An entry that fails the containment check ends `untar` where the entries
before it left it: the state is the one reached after them, and when they
raised no error the error is the one naming the entry. -/
theorem untar_offender {σ : Type} (fs : FileSystem σ) (target : String)
    (pre : List Entry) (e : Entry) (post : List Entry) (readErr : Option String) (s : σ)
    (he : contained target e.name = false) :
    (untar fs target ⟨pre ++ e :: post, readErr⟩ s).1 = (untar fs target ⟨pre, none⟩ s).1 ∧
    ((untar fs target ⟨pre, none⟩ s).2 = none →
      (untar fs target ⟨pre ++ e :: post, readErr⟩ s).2 =
        some (e.name ++ ": illegal file path")) ∧
    (∀ err, (untar fs target ⟨pre, none⟩ s).2 = some err →
      (untar fs target ⟨pre ++ e :: post, readErr⟩ s).2 = some err) := by
  unfold untar
  simp only
  rw [untarLoop_append]
  rcases hp : untarLoop fs target none pre s with ⟨s1, _ | err⟩
  · simp [untarLoop, he]
  · simp

/-- The log of the traced file system only grows, and every call added by the
loop of `untar` is made on the joined path of an entry that passed the
containment check. -/
theorem untarLoop_traced_calls {σ : Type} (fs : FileSystem σ) (target : String)
    (readErr : Option String) (entries : List Entry) (s : σ) (log : List Call) :
    ∀ c ∈ (untarLoop (traced fs) target readErr entries (s, log)).1.2,
      c ∈ log ∨ ∃ e ∈ entries, c.path = Join target e.name ∧ contained target e.name = true := by
  induction entries generalizing s log with
  | nil =>
    intro c hc
    left
    simpa [untarLoop] using hc
  | cons e es ih =>
    intro c hc
    simp only [untarLoop] at hc
    by_cases hcon : contained target e.name = true
    · simp only [hcon, Bool.not_true, Bool.false_eq_true, if_false] at hc
      by_cases hd : e.isDir = true
      · simp only [hd, if_true, traced] at hc
        rcases hm : (fs.MkdirAll s (Join target e.name) e.mode).2 with _ | err
        · simp only [hm] at hc
          rcases ih _ _ c hc with h | ⟨x, hx, hpx⟩
          · rcases List.mem_append.mp h with h | h
            · exact Or.inl h
            · right
              refine ⟨e, List.mem_cons_self _ _, ?_, hcon⟩
              rw [List.mem_singleton.mp h]
              rfl
          · exact Or.inr ⟨x, List.mem_cons_of_mem _ hx, hpx⟩
        · simp only [hm] at hc
          rcases List.mem_append.mp hc with h | h
          · exact Or.inl h
          · right
            refine ⟨e, List.mem_cons_self _ _, ?_, hcon⟩
            rw [List.mem_singleton.mp h]
            rfl
      · simp only [hd, Bool.false_eq_true, if_false, traced] at hc
        rcases ho : (fs.OpenFile s (Join target e.name) e.mode).2 with _ | err
        · simp only [ho] at hc
          rcases hcp : (fs.Copy (fs.OpenFile s (Join target e.name) e.mode).1
              (Join target e.name) e.content).2 with _ | err
          · simp only [hcp] at hc
            rcases ih _ _ c hc with h | ⟨x, hx, hpx⟩
            · rcases List.mem_append.mp h with h | h
              · rcases List.mem_append.mp h with h | h
                · exact Or.inl h
                · right
                  refine ⟨e, List.mem_cons_self _ _, ?_, hcon⟩
                  rw [List.mem_singleton.mp h]
                  rfl
              · right
                refine ⟨e, List.mem_cons_self _ _, ?_, hcon⟩
                rw [List.mem_singleton.mp h]
                rfl
            · exact Or.inr ⟨x, List.mem_cons_of_mem _ hx, hpx⟩
          · simp only [hcp] at hc
            rcases List.mem_append.mp hc with h | h
            · rcases List.mem_append.mp h with h | h
              · exact Or.inl h
              · right
                refine ⟨e, List.mem_cons_self _ _, ?_, hcon⟩
                rw [List.mem_singleton.mp h]
                rfl
            · right
              refine ⟨e, List.mem_cons_self _ _, ?_, hcon⟩
              rw [List.mem_singleton.mp h]
              rfl
        · simp only [ho] at hc
          rcases List.mem_append.mp hc with h | h
          · exact Or.inl h
          · right
            refine ⟨e, List.mem_cons_self _ _, ?_, hcon⟩
            rw [List.mem_singleton.mp h]
            rfl
    · left
      simpa [hcon] using hc

/-- A run of the loop that ends without error has met no entry that fails
the containment check. -/
theorem untarLoop_all_contained {σ : Type} (fs : FileSystem σ) (target : String)
    (entries : List Entry) (s : σ) (h : (untarLoop fs target none entries s).2 = none) :
    ∀ x ∈ entries, contained target x.name = true := by
  induction entries generalizing s with
  | nil => simp
  | cons e es ih =>
    simp only [untarLoop] at h
    by_cases hcon : contained target e.name = true
    · simp only [hcon, Bool.not_true, Bool.false_eq_true, if_false] at h
      intro x hx
      rcases List.mem_cons.mp hx with hx | hx
      · rw [hx]; exact hcon
      · by_cases hd : e.isDir = true
        · simp only [hd, if_true] at h
          rcases hm : fs.MkdirAll s (Join target e.name) e.mode with ⟨s1, _ | err⟩
          · rw [hm] at h
            exact ih s1 h x hx
          · rw [hm] at h
            cases h
        · simp only [hd, Bool.false_eq_true, if_false] at h
          rcases ho : fs.OpenFile s (Join target e.name) e.mode with ⟨s1, _ | err⟩
          · rw [ho] at h
            simp only at h
            rcases hcp : fs.Copy s1 (Join target e.name) e.content with ⟨s2, _ | err⟩
            · rw [hcp] at h
              exact ih s2 h x hx
            · rw [hcp] at h
              cases h
          · rw [ho] at h
            cases h
    · simp [hcon] at h

/-- Tracing does not change what `untar` does: the traced run ends in the
state and with the error of the plain run. -/
theorem untarLoop_traced_fst {σ : Type} (fs : FileSystem σ) (target : String)
    (readErr : Option String) (entries : List Entry) (s : σ) (log : List Call) :
    ((untarLoop (traced fs) target readErr entries (s, log)).1.1,
      (untarLoop (traced fs) target readErr entries (s, log)).2) =
    untarLoop fs target readErr entries s := by
  induction entries generalizing s log with
  | nil => simp [untarLoop]
  | cons e es ih =>
    simp only [untarLoop]
    by_cases hcon : contained target e.name = true
    · simp only [hcon, Bool.not_true, Bool.false_eq_true, if_false]
      by_cases hd : e.isDir = true
      · simp only [hd, if_true, traced]
        rcases hm : fs.MkdirAll s (Join target e.name) e.mode with ⟨s1, _ | err⟩
        · exact ih _ _
        · simp only
      · simp only [hd, Bool.false_eq_true, if_false, traced]
        rcases ho : fs.OpenFile s (Join target e.name) e.mode with ⟨s1, _ | err⟩
        · simp only
          rcases hcp : fs.Copy s1 (Join target e.name) e.content with ⟨s2, _ | err⟩
          · exact ih _ _
          · simp only
        · simp only
    · simp [hcon]

/-- A run of the loop that ends without error has made, in order, the calls
of every entry. -/
theorem untarLoop_traced_log {σ : Type} (fs : FileSystem σ) (target : String)
    (readErr : Option String) (entries : List Entry) (s : σ) (log : List Call)
    (h : (untarLoop fs target readErr entries s).2 = none) :
    (untarLoop (traced fs) target readErr entries (s, log)).1.2 =
      log ++ entries.flatMap (callsOf target) := by
  induction entries generalizing s log with
  | nil => simp [untarLoop]
  | cons e es ih =>
    simp only [untarLoop] at h ⊢
    by_cases hcon : contained target e.name = true
    · simp only [hcon, Bool.not_true, Bool.false_eq_true, if_false] at h ⊢
      by_cases hd : e.isDir = true
      · simp only [hd, if_true] at h ⊢
        rcases hm : fs.MkdirAll s (Join target e.name) e.mode with ⟨s1, _ | err⟩
        · rw [hm] at h
          simp only [traced, hm]
          refine (ih s1 _ h).trans ?_
          simp [callsOf, hd]
        · rw [hm] at h
          cases h
      · simp only [hd, Bool.false_eq_true, if_false] at h ⊢
        rcases ho : fs.OpenFile s (Join target e.name) e.mode with ⟨s1, _ | err⟩
        · rw [ho] at h
          simp only at h
          rcases hcp : fs.Copy s1 (Join target e.name) e.content with ⟨s2, _ | err⟩
          · rw [hcp] at h
            simp only [traced, ho, hcp]
            refine (ih s2 _ h).trans ?_
            simp [callsOf, hd]
          · rw [hcp] at h
            cases h
        · rw [ho] at h
          cases h
    · simp [hcon] at h

/-- On a file system whose calls succeed, the loop ends without error on
entries that all pass the containment check, when the archive ends in `io.EOF`. -/
theorem untarLoop_ok {σ : Type} (fs : FileSystem σ) (target : String)
    (entries : List Entry) (s : σ) (hfs : fs.succeeds)
    (hcont : ∀ e ∈ entries, contained target e.name = true) :
    (untarLoop fs target none entries s).2 = none := by
  induction entries generalizing s with
  | nil => simp [untarLoop]
  | cons e es ih =>
    have hcon := hcont e (List.mem_cons_self _ _)
    have hrest : ∀ x ∈ es, contained target x.name = true :=
      fun x hx => hcont x (List.mem_cons_of_mem _ hx)
    simp only [untarLoop, hcon, Bool.not_true, Bool.false_eq_true, if_false]
    by_cases hd : e.isDir = true
    · simp only [hd, if_true]
      rcases hm : fs.MkdirAll s (Join target e.name) e.mode with ⟨s1, _ | err⟩
      · exact ih s1 hrest
      · have := hfs.1 s (Join target e.name) e.mode
        rw [hm] at this
        cases this
    · simp only [hd, Bool.false_eq_true, if_false]
      rcases ho : fs.OpenFile s (Join target e.name) e.mode with ⟨s1, _ | err⟩
      · simp only
        rcases hcp : fs.Copy s1 (Join target e.name) e.content with ⟨s2, _ | err⟩
        · exact ih s2 hrest
        · have := hfs.2.2 s1 (Join target e.name) e.content
          rw [hcp] at this
          cases this
      · have := hfs.2.1 s (Join target e.name) e.mode
        rw [ho] at this
        cases this

/-! ## Theorems: `untar` -/

/-- C1, as stated, fails: under the destination `..` the entry
`../../etc/passwd` is joined to `../../../etc/passwd`, which has `../` as a
string prefix, so it passes the containment check; `untar` opens it and
returns `nil`. From the working directory `/w/x/y/z` that file is
`/w/etc/passwd`, while the destination is `/w/x/y`: the file is written
outside the destination although the prefix holds. -/
theorem untar_dotdot_destination_escapes :
    Join ".." "../../etc/passwd" = "../../../etc/passwd" ∧
    contained ".." "../../etc/passwd" = true ∧
    untar (traced okFS) ".." ⟨[⟨"../../etc/passwd", false, 0o644, [114, 111, 111, 116]⟩], none⟩
        ((), []) =
      (((), [Call.openFile "../../../etc/passwd" 0o644,
        Call.copy "../../../etc/passwd" [114, 111, 111, 116]]), none) ∧
    Join "/w/x/y/z" ".." = "/w/x/y" ∧
    Join "/w/x/y/z" "../../../etc/passwd" = "/w/etc/passwd" ∧
    HasPrefix "/w/etc/passwd" "/w/x/y/" = false := by
  refine ⟨by decide, by decide, by decide, by decide, by decide, by decide⟩

/-- C1, amended. Path containment of `untar`: for every destination `target`,
every archive and every file system, each path `p` that `untar` passes to
`os.OpenFile` (and copies into) or to `os.MkdirAll` is
`filepath.Join(target, entry.Name)` of an entry of the archive, and
`filepath.Clean(target)` followed by the path separator is a string prefix of
`p`, so `p` is never the normalized destination itself. When the cleaned
destination is not made of `..` elements only, `p` consists of the path
elements of the cleaned destination followed by at least one more element,
all of them proper names (not empty, not `.`, not `..`): hence no call is
made at or outside the destination, whatever the entry names are. -/
theorem untar_calls_contained {σ : Type} (fs : FileSystem σ) (target : String)
    (archive : Archive) (s : σ) :
    ∀ c ∈ (untar (traced fs) target archive (s, [])).1.2,
      (∃ e ∈ archive.entries, c.path = Join target e.name) ∧
      HasPrefix c.path (Clean target ++ String.singleton PathSeparator) = true ∧
      c.path ≠ Clean target ∧
      (dotdotOnly (Clean target) = false →
        ∃ rest : List (List Char), rest ≠ [] ∧ (∀ x ∈ rest, normalElem x) ∧
          splitSep c.path.data = splitSep (Clean target).data ++ rest) := by
  intro c hc
  rcases untarLoop_traced_calls fs target archive.readErr archive.entries s [] c hc with
    h | ⟨e, he, hp, hcon⟩
  · cases h
  · have hpre : HasPrefix c.path (Clean target ++ String.singleton PathSeparator) = true := by
      rw [hp]
      exact hcon
    refine ⟨⟨e, he, hp⟩, hpre, ?_, ?_⟩
    · intro heq
      rw [heq, not_hasPrefix_self_sep] at hpre
      cases hpre
    · intro hdots
      rw [hp]
      exact contained_sound target e.name hcon hdots

/-- The amended C1 at a concrete archive: under `/tmp/scan/` the file
`a/../b/f` is opened at `/tmp/scan/b/f`, which has `/tmp/scan/` as a string
prefix and whose elements are those of `/tmp/scan` followed by proper names. -/
theorem untar_calls_contained_witness :
    Call.openFile "/tmp/scan/b/f" 0o644 ∈
      (untar (traced okFS) "/tmp/scan/" ⟨[⟨"a/../b/f", false, 0o644, [1]⟩], none⟩
        ((), [])).1.2 ∧
    dotdotOnly (Clean "/tmp/scan/") = false ∧
    HasPrefix (Call.openFile "/tmp/scan/b/f" 0o644).path
      (Clean "/tmp/scan/" ++ String.singleton PathSeparator) = true ∧
    ∃ rest : List (List Char), rest ≠ [] ∧ (∀ x ∈ rest, normalElem x) ∧
      splitSep (Call.openFile "/tmp/scan/b/f" 0o644).path.data =
        splitSep (Clean "/tmp/scan/").data ++ rest :=
  ⟨by decide, by decide,
    (untar_calls_contained okFS "/tmp/scan/" ⟨[⟨"a/../b/f", false, 0o644, [1]⟩], none⟩ ()
      (Call.openFile "/tmp/scan/b/f" 0o644) (by decide)).2.1,
    (untar_calls_contained okFS "/tmp/scan/" ⟨[⟨"a/../b/f", false, 0o644, [1]⟩], none⟩ ()
      (Call.openFile "/tmp/scan/b/f" 0o644) (by decide)).2.2.2 (by decide)⟩

/-- C4. Abort at the first offending entry: when the joined path of the
`k`-th entry `e` fails the containment check, `untar` leaves the file system
in the state reached by extracting exactly the entries `1..k-1` before it:
nothing written is rolled back and no later entry is extracted, whatever
follows. When those entries were extracted without error (so that `e` is the
first offender and is reached) it returns the error
`<name of entry k>: illegal file path`; had one of them failed, `untar` would
have stopped there with that error. On the traced file system the log is the
log of entries `1..k-1`: no call is made for entry `k` or for a later one. -/
theorem untar_aborts_at_first_offender {σ : Type} (fs : FileSystem σ) (target : String)
    (pre : List Entry) (e : Entry) (post : List Entry) (readErr : Option String) (s : σ)
    (he : contained target e.name = false) :
    (untar fs target ⟨pre ++ e :: post, readErr⟩ s).1 = (untar fs target ⟨pre, none⟩ s).1 ∧
    ((untar fs target ⟨pre, none⟩ s).2 = none →
      untar fs target ⟨pre ++ e :: post, readErr⟩ s =
        ((untar fs target ⟨pre, none⟩ s).1, some (e.name ++ ": illegal file path"))) ∧
    (∀ err, (untar fs target ⟨pre, none⟩ s).2 = some err →
      (untar fs target ⟨pre ++ e :: post, readErr⟩ s).2 = some err) ∧
    (untar (traced fs) target ⟨pre ++ e :: post, readErr⟩ (s, [])).1.2 =
      (untar (traced fs) target ⟨pre, none⟩ (s, [])).1.2 := by
  have h := untar_offender fs target pre e post readErr s he
  refine ⟨h.1, fun hpre => Prod.ext h.1 (h.2.1 hpre), h.2.2, ?_⟩
  exact congrArg Prod.snd (untar_offender (traced fs) target pre e post readErr (s, []) he).1

/-- C4 at a concrete archive: in `dest`, the directory `a` and the file
`a/f` are extracted, `../x` is refused, and the legal `b` after it is never
reached. -/
theorem untar_aborts_at_first_offender_witness :
    untar (traced okFS) "dest"
        ⟨[⟨"a", true, 0o755, []⟩, ⟨"a/f", false, 0o644, [104, 105]⟩] ++
          ⟨"../x", false, 0o644, [1]⟩ :: [⟨"b", false, 0o600, [2]⟩], none⟩ ((), []) =
      (((), [Call.mkdirAll "dest/a" 0o755, Call.openFile "dest/a/f" 0o644,
        Call.copy "dest/a/f" [104, 105]]), some "../x: illegal file path") :=
  (untar_aborts_at_first_offender (traced okFS) "dest"
    [⟨"a", true, 0o755, []⟩, ⟨"a/f", false, 0o644, [104, 105]⟩] ⟨"../x", false, 0o644, [1]⟩
    [⟨"b", false, 0o600, [2]⟩] none ((), []) (by decide)).2.1 (by decide)

/-- C9. An entry that resolves to the destination itself is rejected: when
`filepath.Join(target, n)` is `filepath.Clean(target)`, the entry fails the
containment check, whether it is a directory or not and whatever the file
system holds; `untar` returns `<n>: illegal file path` as soon as it reads the
entry and extracts neither it nor any later entry (the state and the log of
calls are those reached before the entry). The names `.` and `./` resolve to
the destination for every `target`, the empty name for every non-empty one. -/
theorem untar_rejects_destination_itself {σ : Type} (fs : FileSystem σ) (target : String)
    (pre : List Entry) (e : Entry) (post : List Entry) (readErr : Option String) (s : σ)
    (h : Join target e.name = Clean target) :
    contained target e.name = false ∧
    untar fs target ⟨e :: post, readErr⟩ s = (s, some (e.name ++ ": illegal file path")) ∧
    ((untar fs target ⟨pre, none⟩ s).2 = none →
      untar fs target ⟨pre ++ e :: post, readErr⟩ s =
        ((untar fs target ⟨pre, none⟩ s).1, some (e.name ++ ": illegal file path"))) ∧
    (untar (traced fs) target ⟨pre ++ e :: post, readErr⟩ (s, [])).1.2 =
      (untar (traced fs) target ⟨pre, none⟩ (s, [])).1.2 ∧
    (Join target "." = Clean target ∧ Join target "./" = Clean target ∧
      (target ≠ "" → Join target "" = Clean target)) := by
  have he : contained target e.name = false := by
    unfold contained
    rw [h]
    exact not_hasPrefix_self_sep _
  have hoff := untar_offender fs target pre e post readErr s he
  refine ⟨he, ?_, fun hpre => Prod.ext hoff.1 (hoff.2.1 hpre), ?_, Join_dot target⟩
  · simp [untar, untarLoop, he]
  · exact congrArg Prod.snd
      (untar_offender (traced fs) target pre e post readErr (s, []) he).1

/-- C9 at a concrete archive: the root entry `./` of an archive of a
directory tree is refused in `dest`, and the file after it is not extracted. -/
theorem untar_rejects_destination_itself_witness :
    Join "dest" "./" = Clean "dest" ∧
    untar (traced okFS) "dest"
        ⟨⟨"./", true, 0o755, []⟩ :: [⟨"./a.txt", false, 0o644, [104, 105]⟩], none⟩ ((), []) =
      (((), []), some "./: illegal file path") :=
  ⟨by decide,
    (untar_rejects_destination_itself (traced okFS) "dest" [] ⟨"./", true, 0o755, []⟩
      [⟨"./a.txt", false, 0o644, [104, 105]⟩] none ((), []) (by decide)).2.1⟩

/-- C10. Degenerate destinations reject everything: when
`filepath.Clean(target)` is `.` or the root `/`, no entry name passes the
containment check, because what `filepath.Join` returns never begins with
`./` or `//`; so on every non-empty archive `untar` fails on the first entry
with `<name>: illegal file path`, leaves the file system as it found it and
makes no call. -/
theorem untar_degenerate_destination {σ : Type} (fs : FileSystem σ) (target : String)
    (e : Entry) (rest : List Entry) (readErr : Option String) (s : σ)
    (h : Clean target = "." ∨ Clean target = "/") :
    (∀ name : String, contained target name = false) ∧
    untar fs target ⟨e :: rest, readErr⟩ s = (s, some (e.name ++ ": illegal file path")) ∧
    (untar (traced fs) target ⟨e :: rest, readErr⟩ (s, [])).1.2 = [] := by
  have hall : ∀ name : String, contained target name = false :=
    contained_degenerate target h
  refine ⟨hall, ?_, ?_⟩
  · simp [untar, untarLoop, hall e.name]
  · simp [untar, untarLoop, hall e.name]

/-- C10 at concrete destinations: the empty string, `.`, `./` and `/` are
degenerate, and in `.` a plain file `a.txt` is refused. -/
theorem untar_degenerate_destination_witness :
    Clean "" = "." ∧ Clean "." = "." ∧ Clean "./" = "." ∧ Clean "/" = "/" ∧
    untar (traced okFS) "." ⟨⟨"a.txt", false, 0o644, [104, 105]⟩ :: [], none⟩ ((), []) =
      (((), []), some "a.txt: illegal file path") :=
  ⟨by decide, by decide, by decide, by decide,
    (untar_degenerate_destination (traced okFS) "." ⟨"a.txt", false, 0o644, [104, 105]⟩ []
      none ((), []) (Or.inl (by decide))).2.1⟩

/-- C2, as stated, fails: under the destination `/etc` the entry named
`../../etc/passwd` resolves to `/etc/passwd`, inside the destination; it
passes the containment check, is extracted there, and `untar` returns `nil`. -/
theorem untar_extracts_traversal_name_under_etc :
    contained "/etc" "../../etc/passwd" = true ∧
    untar (traced okFS) "/etc" ⟨[⟨"../../etc/passwd", false, 0o644, [114, 111, 111, 116]⟩], none⟩
        ((), []) =
      (((), [Call.openFile "/etc/passwd" 0o644, Call.copy "/etc/passwd" [114, 111, 111, 116]]),
        none) := by
  constructor <;> decide

/-- C2, amended. Traversal rejection: for every destination whose cleaned
form is neither `/etc` nor made of `..` elements only, the entry named
`../../etc/passwd` fails the containment check; when `untar` reads it, no
earlier entry having failed, it returns the error
`../../etc/passwd: illegal file path`, makes no file-system call for that
entry or a later one, and every call it made before is on a path under
`filepath.Clean(target)` followed by the separator. -/
theorem untar_rejects_traversal {σ : Type} (fs : FileSystem σ) (target : String)
    (pre : List Entry) (e : Entry) (post : List Entry) (readErr : Option String) (s : σ)
    (hname : e.name = "../../etc/passwd") (hetc : Clean target ≠ "/etc")
    (hdots : dotdotOnly (Clean target) = false) :
    contained target e.name = false ∧
    untar fs target ⟨e :: post, readErr⟩ s =
      (s, some "../../etc/passwd: illegal file path") ∧
    ((untar fs target ⟨pre, none⟩ s).2 = none →
      untar fs target ⟨pre ++ e :: post, readErr⟩ s =
        ((untar fs target ⟨pre, none⟩ s).1, some "../../etc/passwd: illegal file path")) ∧
    (untar (traced fs) target ⟨pre ++ e :: post, readErr⟩ (s, [])).1.2 =
      (untar (traced fs) target ⟨pre, none⟩ (s, [])).1.2 ∧
    (∀ c ∈ (untar (traced fs) target ⟨pre ++ e :: post, readErr⟩ (s, [])).1.2,
      HasPrefix c.path (Clean target ++ String.singleton PathSeparator) = true) := by
  have he : contained target e.name = false := by
    cases hc : contained target e.name with
    | false => rfl
    | true =>
      rw [hname] at hc
      rcases contained_traversal target hc with h | h
      · exact absurd h hetc
      · rw [hdots] at h
        cases h
  have hoff := untar_offender fs target pre e post readErr s he
  have hmsg : e.name ++ ": illegal file path" = "../../etc/passwd: illegal file path" := by
    rw [hname]
    rfl
  rw [hmsg] at hoff
  refine ⟨he, ?_, fun hpre => Prod.ext hoff.1 (hoff.2.1 hpre), ?_, ?_⟩
  · simp [untar, untarLoop, he, hmsg]
  · exact congrArg Prod.snd
      (untar_offender (traced fs) target pre e post readErr (s, []) he).1
  · intro c hc
    rcases untarLoop_traced_calls fs target readErr (pre ++ e :: post) s [] c hc with
      h | ⟨x, _, hp, hcon⟩
    · cases h
    · rw [hp]
      exact hcon

/-- The amended C2 at the destination `/tmp/scan`: after the directory `a`,
the entry `../../etc/passwd` is refused and nothing is made for it. -/
theorem untar_rejects_traversal_witness :
    Clean "/tmp/scan" ≠ "/etc" ∧ dotdotOnly (Clean "/tmp/scan") = false ∧
    untar (traced okFS) "/tmp/scan"
        ⟨[⟨"a", true, 0o755, []⟩] ++ ⟨"../../etc/passwd", false, 0o644, [1]⟩ :: [], none⟩
        ((), []) =
      (((), [Call.mkdirAll "/tmp/scan/a" 0o755]), some "../../etc/passwd: illegal file path") :=
  ⟨by decide, by decide,
    (untar_rejects_traversal (traced okFS) "/tmp/scan" [⟨"a", true, 0o755, []⟩]
      ⟨"../../etc/passwd", false, 0o644, [1]⟩ [] none ((), []) rfl (by decide)
      (by decide)).2.2.1 (by decide)⟩

/-- C7, as stated, fails, in three ways. An archive of a directory tree that
starts with the root entry `./`, as `tar` writes it, is refused in `dest` at
that entry, and the file `./a.txt` after it is not extracted. Under the
destination `.` even the plain entry `a.txt` is refused. And on a file system
whose calls fail, the entry `a.txt` passes the check in `dest` but `untar`
returns the error of `os.OpenFile`. -/
theorem untar_round_trip_fails_on_root_entry :
    untar (traced okFS) "dest"
        ⟨[⟨"./", true, 0o755, []⟩, ⟨"./a.txt", false, 0o644, [104, 105]⟩], none⟩ ((), []) =
      (((), []), some "./: illegal file path") ∧
    untar (traced okFS) "." ⟨[⟨"a.txt", false, 0o644, [104, 105]⟩], none⟩ ((), []) =
      (((), []), some "a.txt: illegal file path") ∧
    untar (traced readOnlyFS) "dest" ⟨[⟨"a.txt", false, 0o644, [104, 105]⟩], none⟩ ((), []) =
      (((), [Call.openFile "dest/a.txt" 0o644]), some "read-only file system") := by
  refine ⟨by decide, by decide, by decide⟩

/-- C7, amended. Extraction round trip: for every archive built from a
directory tree without its root entry (every entry name is relative to the
root of the tree: no `..` element and at least one element that names
something) that ends in `io.EOF`, and every destination whose cleaned form is
neither `.` nor `/`, every entry passes the containment check, and its joined
path is the cleaned destination followed by the elements of its name: the
same relative path under the destination. On a file system whose calls
succeed `untar` returns `nil`, and it has made, in archive order and nothing
else, for every directory entry the call
`os.MkdirAll(filepath.Join(target, name), mode)` and for every other entry
the call `os.OpenFile(filepath.Join(target, name), O_CREATE|O_TRUNC|O_WRONLY,
mode)` followed by the copy of exactly the bytes of the entry: every entry
is handed to the file system at its relative path under the destination, with
its content byte for byte and its mode. The same calls are made on any file
system on which `untar` returns `nil`. -/
theorem untar_round_trip {σ : Type} (fs : FileSystem σ) (target : String)
    (archive : Archive) (s : σ) (hEOF : archive.readErr = none)
    (htree : ∀ e ∈ archive.entries, treeName e.name = true)
    (hdest : Clean target ≠ "." ∧ Clean target ≠ "/")
    (hfs : fs.succeeds) :
    (∀ e ∈ archive.entries, contained target e.name = true ∧
      splitSep (Join target e.name).data =
        splitSep (Clean target).data ++ properElems e.name) ∧
    (untar fs target archive s).2 = none ∧
    (untar (traced fs) target archive (s, [])).1.2 = archive.entries.flatMap (callsOf target) ∧
    (∀ e ∈ archive.entries, ∀ c ∈ callsOf target e,
      c ∈ (untar (traced fs) target archive (s, [])).1.2) ∧
    (∀ (fs2 : FileSystem σ) (s2 : σ), (untar fs2 target archive s2).2 = none →
      (untar (traced fs2) target archive (s2, [])).1.2 =
        archive.entries.flatMap (callsOf target)) := by
  have hcont : ∀ e ∈ archive.entries, contained target e.name = true :=
    fun e he => (contained_of_treeName target e.name (htree e he) hdest).1
  have hok : (untar fs target archive s).2 = none := by
    unfold untar
    rw [hEOF]
    exact untarLoop_ok fs target archive.entries s hfs hcont
  have hlog : (untar (traced fs) target archive (s, [])).1.2 =
      archive.entries.flatMap (callsOf target) := by
    have := untarLoop_traced_log fs target archive.readErr archive.entries s [] hok
    simpa [untar] using this
  refine ⟨fun e he => contained_of_treeName target e.name (htree e he) hdest, hok, hlog,
    ?_, ?_⟩
  · intro e he c hc
    rw [hlog]
    exact List.mem_flatMap.mpr ⟨e, he, hc⟩
  · intro fs2 s2 h2
    have := untarLoop_traced_log fs2 target archive.readErr archive.entries s2 [] h2
    simpa [untar] using this

/-- The amended C7 at a concrete tree: the directory `a/`, the file `a/f` and
the file `./b` are handed to the file system under `dest` with their modes and
bytes. -/
theorem untar_round_trip_witness :
    untar (traced okFS) "dest"
        ⟨[⟨"a/", true, 0o755, []⟩, ⟨"a/f", false, 0o644, [104, 105]⟩,
          ⟨"./b", false, 0o600, [0]⟩], none⟩ ((), []) =
      (((), [Call.mkdirAll "dest/a" 0o755, Call.openFile "dest/a/f" 0o644,
        Call.copy "dest/a/f" [104, 105], Call.openFile "dest/b" 0o600,
        Call.copy "dest/b" [0]]), none) :=
  Prod.ext (Prod.ext rfl
    ((untar_round_trip okFS "dest"
      ⟨[⟨"a/", true, 0o755, []⟩, ⟨"a/f", false, 0o644, [104, 105]⟩,
        ⟨"./b", false, 0o600, [0]⟩], none⟩ () rfl (by decide) (by decide)
      ⟨fun _ _ _ => rfl, fun _ _ _ => rfl, fun _ _ _ => rfl⟩).2.2.1.trans (by decide)))
    (by decide)

/-- A read error of the archive is returned as it is: when the entries are
extracted without error and `tarReader.Next()` then fails, `untar` returns
that error and leaves what it extracted. -/
theorem untar_returns_read_error {σ : Type} (fs : FileSystem σ) (target : String)
    (entries : List Entry) (err : String) (s : σ)
    (h : (untar fs target ⟨entries, none⟩ s).2 = none) :
    untar fs target ⟨entries, some err⟩ s = ((untar fs target ⟨entries, none⟩ s).1, some err) := by
  have happ := untarLoop_append fs target (some err) entries [] s
  simp only [List.append_nil] at happ
  unfold untar at h ⊢
  simp only at h ⊢
  rw [happ]
  rcases hp : untarLoop fs target none entries s with ⟨s1, _ | e1⟩
  · simp [untarLoop]
  · rw [hp] at h
    cases h

/-- A truncated archive at a concrete input: the directory is made, then the
read error comes back. -/
theorem untar_returns_read_error_witness :
    untar (traced okFS) "dest" ⟨[⟨"a", true, 0o755, []⟩], some "unexpected EOF"⟩ ((), []) =
      (((), [Call.mkdirAll "dest/a" 0o755]), some "unexpected EOF") :=
  untar_returns_read_error (traced okFS) "dest" [⟨"a", true, 0o755, []⟩] "unexpected EOF"
    ((), []) (by decide)

/-- A failing file-system call ends the extraction: on a file system where
every call fails, `untar` returns the error of the first call it makes and
goes no further, so an offending entry later in the archive is never named. -/
theorem untar_stops_at_failing_call :
    untar (traced readOnlyFS) "dest"
        ⟨[⟨"a.txt", false, 0o644, [104, 105]⟩, ⟨"../x", false, 0o644, [1]⟩], none⟩ ((), []) =
      (((), [Call.openFile "dest/a.txt" 0o644]), some "read-only file system") := by
  decide

/-! ## Theorems: the severity table and the threshold -/

/-- The loop of `validateThreshold` returns normally exactly when the
threshold is one of the keys visited, whatever their order; otherwise it
reaches the fatal diagnostic. -/
theorem validateThresholdOver_eq (threshold : String) (keys : List String) :
    validateThresholdOver threshold keys =
      if threshold ∈ keys then Outcome.returned
      else Outcome.fatal ("Invalid CVE severity threshold " ++ threshold ++ " given") := by
  induction keys with
  | nil => simp [validateThresholdOver]
  | cons k ks ih =>
    by_cases h : threshold = k
    · simp [validateThresholdOver, h]
    · simp [validateThresholdOver, h, ih]

/-- C5. `validateThreshold` returns normally if and only if the threshold is,
character for character, one of `Critical`, `High`, `Medium`, `Low`,
`Negligible`, `Unknown`; for every other string it ends in the fatal
diagnostic `Invalid CVE severity threshold <threshold> given`, in particular
for the empty string, `high`, `HIGH` and ` High`. The outcome is the same for
every order in which `range` may visit the keys of the map. -/
theorem validateThreshold_iff_label (threshold : String) :
    (validateThreshold threshold = Outcome.returned ↔
        threshold ∈ ["Critical", "High", "Medium", "Low", "Negligible", "Unknown"]) ∧
    (threshold ∉ ["Critical", "High", "Medium", "Low", "Negligible", "Unknown"] →
        validateThreshold threshold =
          Outcome.fatal ("Invalid CVE severity threshold " ++ threshold ++ " given")) ∧
    (∀ keys : List String, keys.Perm (SeverityMap.map Prod.fst) →
        validateThresholdOver threshold keys = validateThreshold threshold) ∧
    validateThreshold "" = Outcome.fatal "Invalid CVE severity threshold  given" ∧
    validateThreshold "high" = Outcome.fatal "Invalid CVE severity threshold high given" ∧
    validateThreshold "HIGH" = Outcome.fatal "Invalid CVE severity threshold HIGH given" ∧
    validateThreshold " High" = Outcome.fatal "Invalid CVE severity threshold  High given" := by
  have hkeys : SeverityMap.map Prod.fst =
      ["Critical", "High", "Medium", "Low", "Negligible", "Unknown"] := by decide
  refine ⟨?_, ?_, ?_, by decide, by decide, by decide, by decide⟩
  · unfold validateThreshold
    rw [validateThresholdOver_eq, hkeys]
    by_cases h : threshold ∈ ["Critical", "High", "Medium", "Low", "Negligible", "Unknown"]
    · rw [if_pos h]
      exact ⟨fun _ => h, fun _ => rfl⟩
    · rw [if_neg h]
      exact ⟨fun hc => (by cases hc), fun hc => absurd hc h⟩
  · intro h
    unfold validateThreshold
    rw [validateThresholdOver_eq, hkeys, if_neg h]
  · intro keys hperm
    unfold validateThreshold
    rw [validateThresholdOver_eq, validateThresholdOver_eq]
    have hmem : threshold ∈ keys ↔ threshold ∈ SeverityMap.map Prod.fst := hperm.mem_iff
    by_cases h : threshold ∈ SeverityMap.map Prod.fst
    · rw [if_pos h, if_pos (hmem.mpr h)]
    · rw [if_neg h, if_neg (fun hk => h (hmem.mp hk))]

/-- C6. `SeverityMap` has exactly the six keys `Critical`, `High`, `Medium`,
`Low`, `Negligible`, `Unknown`, each once, mapped to 1, 2, 3, 4, 5, 6; the
rank is injective on them and orders them strictly, `Critical` first (the
smallest rank, the most urgent) and `Unknown` last; any two of the labels are
comparable by rank; and a lookup is a function of the label alone, so looking
a label up twice gives the same rank. -/
theorem severityMap_ranking :
    SeverityMap.map Prod.fst =
        ["Critical", "High", "Medium", "Low", "Negligible", "Unknown"] ∧
    (SeverityMap.map Prod.fst).Nodup ∧
    severityRank "Critical" = 1 ∧ severityRank "High" = 2 ∧ severityRank "Medium" = 3 ∧
    severityRank "Low" = 4 ∧ severityRank "Negligible" = 5 ∧ severityRank "Unknown" = 6 ∧
    (∀ a ∈ SeverityMap.map Prod.fst, ∀ b ∈ SeverityMap.map Prod.fst,
        severityRank a = severityRank b → a = b) ∧
    (severityRank "Critical" < severityRank "High" ∧
      severityRank "High" < severityRank "Medium" ∧
      severityRank "Medium" < severityRank "Low" ∧
      severityRank "Low" < severityRank "Negligible" ∧
      severityRank "Negligible" < severityRank "Unknown") ∧
    (∀ a ∈ SeverityMap.map Prod.fst, ∀ b ∈ SeverityMap.map Prod.fst,
        severityRank a < severityRank b ∨ a = b ∨ severityRank b < severityRank a) ∧
    (∀ a b : String, a = b → severityRank a = severityRank b) := by
  refine ⟨by decide, by decide, by decide, by decide, by decide, by decide, by decide,
    by decide, by decide, by decide, by decide, ?_⟩
  intro a b h
  rw [h]

/-! ## Theorems: the unapproved set -/

/-- The unapproved set of a threshold is a sublist of the unapproved set of
any threshold of the same or a larger rank. -/
theorem unapproved_sublist (vulns : List Vulnerability) (image : String) (w : Whitelist)
    (t t2 : String) (h : severityRank t ≤ severityRank t2) :
    (unapproved vulns image w t).Sublist (unapproved vulns image w t2) := by
  unfold unapproved
  induction vulns with
  | nil => simp
  | cons v vs ih =>
    by_cases hw : isWhitelisted w image v = true
    · simpa [List.filter_cons, hw] using ih
    · by_cases h1 : severityRank v.severity ≤ severityRank t
      · have h2 : severityRank v.severity ≤ severityRank t2 := le_trans h1 h
        simpa [List.filter_cons, hw, atOrAboveThreshold, h1, h2] using ih
      · by_cases h2 : severityRank v.severity ≤ severityRank t2
        · simp only [List.filter_cons, atOrAboveThreshold, h1, h2, decide_True, decide_False,
            Bool.false_and, Bool.true_and, hw, Bool.not_false, if_true, if_false,
            Bool.false_eq_true]
          exact List.Sublist.cons _ ih
        · simpa [List.filter_cons, hw, atOrAboveThreshold, h1, h2] using ih

/-- C8, as stated, fails: for the two findings `CVE-2021-2` (High) and
`CVE-2021-3` (Low) of §8 and an empty whitelist, raising the threshold from
`High` to the less urgent `Negligible` (rank 2 to rank 5) raises the size of
the unapproved set from 1 to 2. -/
theorem unapproved_grows_with_less_urgent_threshold :
    severityRank "High" < severityRank "Negligible" ∧
    (unapproved [⟨"CVE-2021-2", "High", "libc"⟩, ⟨"CVE-2021-3", "Low", "zlib"⟩] "app:1"
        ⟨[], []⟩ "High").length = 1 ∧
    (unapproved [⟨"CVE-2021-2", "High", "libc"⟩, ⟨"CVE-2021-3", "Low", "zlib"⟩] "app:1"
        ⟨[], []⟩ "Negligible").length = 2 ∧
    ¬ (∀ (vulns : List Vulnerability) (image : String) (w : Whitelist) (t t2 : String),
        severityRank t < severityRank t2 →
        (unapproved vulns image w t2).length ≤ (unapproved vulns image w t).length) := by
  refine ⟨by decide, by decide, by decide, ?_⟩
  intro hall
  have h := hall [⟨"CVE-2021-2", "High", "libc"⟩, ⟨"CVE-2021-3", "Low", "zlib"⟩] "app:1"
    ⟨[], []⟩ "High" "Negligible" (by decide)
  revert h
  decide

/-- C8, amended. For a fixed vulnerability list, image name and whitelist,
moving the threshold to a less urgent severity (a label of larger or equal
rank) never removes a member of the unapproved set and never decreases its
size: the unapproved set of the more urgent threshold is a sublist of the
other. Read the other way, moving the threshold to a more urgent severity
only removes or keeps members. -/
theorem unapproved_monotone (vulns : List Vulnerability) (image : String) (w : Whitelist)
    (t t2 : String) (h : severityRank t ≤ severityRank t2) :
    (unapproved vulns image w t).Sublist (unapproved vulns image w t2) ∧
    (∀ v ∈ unapproved vulns image w t, v ∈ unapproved vulns image w t2) ∧
    (unapproved vulns image w t).length ≤ (unapproved vulns image w t2).length :=
  ⟨unapproved_sublist vulns image w t t2 h,
    fun _ hv => (unapproved_sublist vulns image w t t2 h).subset hv,
    (unapproved_sublist vulns image w t t2 h).length_le⟩

/-- The amended C8 at the scenario of §8: from `High` to `Negligible` the
unapproved set grows from `[CVE-2021-2]` to `[CVE-2021-2, CVE-2021-3]`. -/
theorem unapproved_monotone_witness :
    severityRank "High" ≤ severityRank "Negligible" ∧
    (unapproved [⟨"CVE-2021-1", "Critical", "openssl"⟩, ⟨"CVE-2021-2", "High", "libc"⟩,
        ⟨"CVE-2021-3", "Low", "zlib"⟩] "app:1" ⟨["CVE-2021-1"], []⟩ "High").length ≤
      (unapproved [⟨"CVE-2021-1", "Critical", "openssl"⟩, ⟨"CVE-2021-2", "High", "libc"⟩,
        ⟨"CVE-2021-3", "Low", "zlib"⟩] "app:1" ⟨["CVE-2021-1"], []⟩ "Negligible").length :=
  ⟨by decide,
    (unapproved_monotone [⟨"CVE-2021-1", "Critical", "openssl"⟩, ⟨"CVE-2021-2", "High", "libc"⟩,
        ⟨"CVE-2021-3", "Low", "zlib"⟩] "app:1" ⟨["CVE-2021-1"], []⟩ "High" "Negligible"
        (by decide)).2.2⟩

end Clair
